import Mathlib

/-!
# PingClient: ICMP echo session engine

A shallow embedding of `src/PingClient/ping.go` (package `lib`): the echo payload
codec (`timeToBytes`, `bytesToTime`, `intToBytes`, `bytesToInt`), the reply
correlation in `processPacket`, the send path `sendICMP`, the stop signal, the
statistics aggregator `Statistics` and the scheduler loop of `Run`.  The library calls the source makes
(`icmp.ParseMessage`, `icmp.Message.Marshal`, `conn.WriteTo`, `time.Now`,
`net.ResolveIPAddr`, `icmp.ListenPacket`) are parameters of the operations that make
them, and the cases the `select` of `Run` picks are a list of events.

Conventions of the embedding:

* Go `int64` / `time.Duration` values are `Int`; every arithmetic operation whose
  result can leave the 64-bit range is followed by `wrapInt64` (two's complement
  wrap-around, as Go defines signed overflow).  The packet counters and the
  sequence number (`int`) grow by one per packet; their increments are not
  wrapped.
* a byte is a `Fin 256`; a `[]byte` is a `List Byte`.
* an index or slice out of range is a Go run-time panic; functions that can
  panic return `Option`, with `none` for the panic.
* `>> k` on a signed integer is floor division by `2 ^ k`, `& 0xff` is `% 256`,
  `<< k` is multiplication by `2 ^ k` followed by the wrap.
-/

namespace Ping

/-! ## Machine integers and bytes -/

/-- A byte (`byte` / `uint8`). -/
abbrev Byte := Fin 256

/-- Two's complement reduction of an integer to the `int64` range. -/
def wrapInt64 (x : Int) : Int := (x + 2 ^ 63) % 2 ^ 64 - 2 ^ 63

/-- The Go conversion `byte(x)` of an integer: the low eight bits. -/
def toByte (x : Int) : Byte := ⟨(x % 256).toNat, by omega⟩

/-- Constant `timeSliceLength` of the source. -/
def timeSliceLength : Nat := 8

/-- Constant `trackerLength` of the source. -/
def trackerLength : Nat := 8

/-- Constant `protocolICMP` of the source. -/
def protocolICMP : Nat := 1

/-- Constant `protocolIPv6ICMP` of the source. -/
def protocolIPv6ICMP : Nat := 58

/-! ## `time.Time` -/

/-- A wall-clock instant as `time.Unix` builds it: seconds since the Unix epoch and
nanoseconds within the second. -/
structure Time where
  sec : Int
  nsec : Int
  deriving DecidableEq, Repr

/-- Go `time.Unix(sec, nsec)`: an `nsec` outside `[0, 999999999]` is carried into
the seconds. -/
def Unix (sec nsec : Int) : Time :=
  if nsec < 0 ∨ nsec ≥ 1000000000 then
    let n := nsec.tdiv 1000000000
    let sec1 := wrapInt64 (sec + n)
    let nsec1 := wrapInt64 (nsec - wrapInt64 (n * 1000000000))
    if nsec1 < 0 then ⟨wrapInt64 (sec1 - 1), wrapInt64 (nsec1 + 1000000000)⟩
    else ⟨sec1, nsec1⟩
  else ⟨sec, nsec⟩

/-- Go `Time.UnixNano`: `unixSec()*1e9 + int64(nsec())` in `int64` arithmetic. -/
def Time.UnixNano (t : Time) : Int :=
  wrapInt64 (wrapInt64 (t.sec * 1000000000) + t.nsec)

/-- Go `Time.Sub` on wall-clock instants: the difference as a `Duration`, saturated
to the largest or smallest `Duration` when it does not fit. -/
def Time.Sub (t u : Time) : Int :=
  let d := (t.sec - u.sec) * 1000000000 + (t.nsec - u.nsec)
  if d < -2 ^ 63 then -2 ^ 63
  else if d ≥ 2 ^ 63 then 2 ^ 63 - 1
  else d

/-! ## Payload codec -/

/-- Source `timeToBytes`: the eight bytes of `t.UnixNano()`, most significant
first; byte `i` is `byte((nsec >> ((7 - i) * 8)) & 0xff)`. -/
def timeToBytes (t : Time) : List Byte :=
  let nsec := t.UnixNano
  (List.range 8).map fun i => toByte ((nsec / 2 ^ ((7 - i) * 8)) % 256)

/-- Source `bytesToTime`: accumulates `int64(b[i]) << ((7 - i) * 8)` for
`i = 0 .. 7` and builds `time.Unix(nsec/1e9, nsec%1e9)`.  `none` when `b` has
fewer than eight bytes (index out of range). -/
def bytesToTime (b : List Byte) : Option Time :=
  ((List.range 8).foldlM
      (fun (nsec : Int) i =>
        (b.get? i).map fun x => wrapInt64 (nsec + wrapInt64 ((x.val : Int) * 2 ^ ((7 - i) * 8))))
      0).map
    fun nsec => Unix (nsec.tdiv 1000000000) (nsec.tmod 1000000000)

/-- Go `binary.BigEndian.Uint64`: the unsigned value of the first eight bytes;
`none` (panic) when fewer than eight bytes are given. -/
def BigEndianUint64 (b : List Byte) : Option Nat :=
  match b with
  | b0 :: b1 :: b2 :: b3 :: b4 :: b5 :: b6 :: b7 :: _ =>
    some (b7.val + b6.val * 2 ^ 8 + b5.val * 2 ^ 16 + b4.val * 2 ^ 24 + b3.val * 2 ^ 32
      + b2.val * 2 ^ 40 + b1.val * 2 ^ 48 + b0.val * 2 ^ 56)
  | _ => none

/-- Go `binary.BigEndian.PutUint64` on a fresh eight-byte slice. -/
def BigEndianPutUint64 (v : Nat) : List Byte :=
  [toByte (v / 2 ^ 56), toByte (v / 2 ^ 48), toByte (v / 2 ^ 40), toByte (v / 2 ^ 32),
   toByte (v / 2 ^ 24), toByte (v / 2 ^ 16), toByte (v / 2 ^ 8), toByte v]

/-- Source `bytesToInt`: `int64(binary.BigEndian.Uint64(b))`. -/
def bytesToInt (b : List Byte) : Option Int :=
  (BigEndianUint64 b).map fun (u : Nat) => wrapInt64 (u : Int)

/-- Source `intToBytes`: `binary.BigEndian.PutUint64(b, uint64(tracker))`. -/
def intToBytes (tracker : Int) : List Byte :=
  BigEndianPutUint64 (tracker % 2 ^ 64).toNat

/-! ## Messages, packets and the session -/

/-- An ICMP message type (`icmp.Type`): a value of `ipv4.ICMPType` or of
`ipv6.ICMPType`.  Two types are equal when both the Go type and the number agree. -/
inductive ICMPType where
  | ipv4 (t : Nat)
  | ipv6 (t : Nat)
  deriving DecidableEq, Repr

/-- Library constant `ipv4.ICMPTypeEchoReply`. -/
def ipv4ICMPTypeEchoReply : ICMPType := .ipv4 0

/-- Library constant `ipv4.ICMPTypeEcho`. -/
def ipv4ICMPTypeEcho : ICMPType := .ipv4 8

/-- Library constant `ipv6.ICMPTypeEchoReply`. -/
def ipv6ICMPTypeEchoReply : ICMPType := .ipv6 129

/-- Library constant `ipv6.ICMPTypeEchoRequest`. -/
def ipv6ICMPTypeEchoRequest : ICMPType := .ipv6 128

/-- Library method `ICMPType.Protocol`: the protocol number of the type's family. -/
def ICMPType.Protocol : ICMPType → Nat
  | .ipv4 _ => protocolICMP
  | .ipv6 _ => protocolIPv6ICMP

/-- The body `icmp.Echo`. -/
structure Echo where
  ID : Int
  Seq : Int
  Data : List Byte
  deriving DecidableEq, Repr

/-- A message body (`icmp.MessageBody`): an `*icmp.Echo` or a body of another type. -/
inductive MessageBody where
  | echo (pkt : Echo)
  | other
  deriving DecidableEq, Repr

/-- A decoded message (`icmp.Message`); `Typ` is the field `Type`. -/
structure Message where
  Typ : ICMPType
  Code : Int
  Body : MessageBody
  deriving DecidableEq, Repr

/-- Go `net.IPAddr`. -/
structure IPAddr where
  IP : List Byte
  Zone : String
  deriving DecidableEq, Repr

/-- Source type `packet`: what the receive loop hands to the scheduler. -/
structure packet where
  bytes : List Byte
  nbytes : Int
  ttl : Int
  deriving DecidableEq, Repr

/-- Source type `Packet`: the result handed to `OnSend` / `OnRecv`. -/
structure Packet where
  Rtt : Int
  IPAddr : Option IPAddr
  Addr : String
  Nbytes : Int
  Seq : Int
  Ttl : Int
  deriving DecidableEq, Repr

/-- Source type `PingClient`.  The three handlers are kept as flags (`true` when the
handler is not nil) and their invocations are reported in the results of the
operations; `doneClosed` is the state of the channel `done`. -/
structure PingClient where
  Interval : Int
  Timeout : Int
  Count : Int
  Debug : Bool
  PacketsSent : Int
  PacketsRecv : Int
  RecordRtts : Bool
  rtts : List Int
  OnSend : Bool
  OnRecv : Bool
  OnFinish : Bool
  Size : Int
  Tracker : Int
  Source : String
  doneClosed : Bool
  ipaddr : Option IPAddr
  addr : String
  ipv4 : Bool
  id : Int
  sequence : Int
  network : String
  protocol : String
  deriving DecidableEq, Repr

/-- Source `SetPrivileged`. -/
def SetPrivileged (p : PingClient) (privileged : Bool) : PingClient :=
  if privileged then { p with protocol := "icmp" } else { p with protocol := "udp" }

/-- Source `Privileged`. -/
def Privileged (p : PingClient) : Bool := p.protocol = "icmp"

/-! ## Receiving: `processPacket` -/

/-- What one call of `processPacket` does: the session afterwards, the returned
error (`none` for nil) and the packets handed to `OnRecv`. -/
structure RecvResult where
  p : PingClient
  err : Option String
  onRecv : List Packet
  deriving DecidableEq, Repr

/-- Source `processPacket`.  `receivedAt` is the value of `time.Now()` and
`ParseMessage` is the library decoder `icmp.ParseMessage`, called with the protocol
number of the session's address family.  The result is `none` for a run-time
panic. -/
def processPacket (ParseMessage : Nat → List Byte → Except String Message)
    (p : PingClient) (receivedAt : Time) (recv : packet) : Option RecvResult :=
  let proto := if p.ipv4 then protocolICMP else protocolIPv6ICMP
  match ParseMessage proto recv.bytes with
  | .error e => some ⟨p, some ("error parsing icmp message: " ++ e), []⟩
  | .ok m =>
    if m.Typ ≠ ipv4ICMPTypeEchoReply ∧ m.Typ ≠ ipv6ICMPTypeEchoReply then
      -- Not an echo reply, ignore it
      some ⟨p, none, []⟩
    else
      let outPkt : Packet :=
        { Rtt := 0, IPAddr := p.ipaddr, Addr := p.addr, Nbytes := recv.nbytes, Seq := 0,
          Ttl := recv.ttl }
      match m.Body with
      | .echo pkt =>
        if p.protocol = "icmp" ∧ pkt.ID ≠ p.id then
          some ⟨p, none, []⟩
        else if pkt.Data.length < timeSliceLength + trackerLength then
          some ⟨p, some "insufficient data received", []⟩
        else
          match bytesToInt (pkt.Data.drop timeSliceLength),
              bytesToTime (pkt.Data.take timeSliceLength) with
          | some tracker, some timestamp =>
            if tracker ≠ p.Tracker then
              some ⟨p, none, []⟩
            else
              let outPkt := { outPkt with Rtt := receivedAt.Sub timestamp, Seq := pkt.Seq }
              let p1 := { p with PacketsRecv := p.PacketsRecv + 1 }
              let p2 := if p1.RecordRtts then { p1 with rtts := p1.rtts ++ [outPkt.Rtt] } else p1
              some ⟨p2, none, if p2.OnRecv then [outPkt] else []⟩
          | _, _ => none
      | .other =>
        -- Very bad, not sure how this can happen
        some ⟨p, some "invalid ICMP echo reply", []⟩

/-- The acceptance predicate of the specification for a decoded reply `m` in the
session `p`: the type is the echo-reply type of the session's address family, the body
is an echo whose identifier is the session's when the session is privileged, the
payload has at least sixteen bytes and the tracker at payload offset eight is the
session tracker. -/
def AcceptedBySpec (p : PingClient) (m : Message) : Prop :=
  m.Typ = (if p.ipv4 then ipv4ICMPTypeEchoReply else ipv6ICMPTypeEchoReply) ∧
    match m.Body with
    | .echo pkt =>
      (p.protocol = "icmp" → pkt.ID = p.id) ∧ 16 ≤ pkt.Data.length ∧
        bytesToInt (pkt.Data.drop 8) = some p.Tracker
    | .other => False

instance (p : PingClient) (m : Message) : Decidable (AcceptedBySpec p m) := by
  unfold AcceptedBySpec
  cases m.Body <;> exact inferInstance

/-! ## Sending: `sendICMP` -/

/-- The `Err` field of a `*net.OpError`, as far as `sendICMP` inspects it. -/
inductive Errno where
  | ENOBUFS
  | other (code : Nat)
  deriving DecidableEq, Repr

/-- The outcome of one `conn.WriteTo`: success, a `*net.OpError`, or an error of
another type. -/
inductive WriteResult where
  | ok (n : Int)
  | opError (err : Errno)
  | otherError (msg : String)
  deriving DecidableEq, Repr

/-- What one call of `sendICMP` does: the session afterwards, the returned error
(`none` for nil), the packets handed to `OnSend` and the number of `conn.WriteTo`
calls made. -/
structure SendResult where
  p : PingClient
  err : Option String
  onSend : List Packet
  writes : Nat
  deriving DecidableEq, Repr

/-- Constant `maxAlloc` of the Go run time on 64-bit platforms: `make` and `append`
panic ("len out of range") for a byte slice longer than this.  An allocation within
the limit is taken to succeed. -/
def maxAlloc : Int := 2 ^ 48

/-- The payload `t` that `sendICMP` builds (source lines 642-645): time stamp, tracker
and, when `remainSize` is positive, `remainSize` filler bytes of value one.
`remainSize` is `Size - 8 - 8` in `int` arithmetic, so it wraps around for a `Size`
within sixteen of the smallest `int`.  `none` is the run-time panic of `bytes.Repeat`
or of `append` when the filler, or the payload with the filler, is longer than
`maxAlloc`. -/
def echoData (p : PingClient) (now : Time) : Option (List Byte) :=
  let t := timeToBytes now ++ intToBytes p.Tracker
  let remainSize := wrapInt64 (wrapInt64 (p.Size - timeSliceLength) - trackerLength)
  if remainSize > 0 then
    if remainSize > maxAlloc ∨ (t.length : Int) + remainSize > maxAlloc then none
    else some (t ++ List.replicate remainSize.toNat (1 : Byte))
  else some t

/-- The write loop of `sendICMP` (source lines 664-686).  `writes` lists the outcomes
of the successive `conn.WriteTo` calls; the result is `none` when the list ends
while the loop is still retrying.  Every pass of the loop makes one `conn.WriteTo`
call. -/
def sendLoop (p : PingClient) (msgBytes : List Byte) : List WriteResult → Option SendResult
  | [] => none
  | .opError .ENOBUFS :: ws =>
    (sendLoop p msgBytes ws).map fun r => { r with writes := r.writes + 1 }
  | _ :: _ =>
    let outPkt : Packet :=
      { Rtt := 0, IPAddr := p.ipaddr, Addr := p.addr, Nbytes := msgBytes.length,
        Seq := p.sequence, Ttl := 0 }
    some ⟨{ p with PacketsSent := p.PacketsSent + 1, sequence := p.sequence + 1 }, none,
      if p.OnSend then [outPkt] else [], 1⟩

/-- Source `sendICMP`.  `now` is the value of `time.Now()`, `Marshal` is the library
encoder `icmp.Message.Marshal` and `writes` lists the outcomes of the successive
`conn.WriteTo` calls.  The result is `none` for a run-time panic (the destination of
an unresolved session in "udp" mode, a payload that cannot be built) and when `writes`
ends during the retries. -/
def sendICMP (Marshal : Message → Except String (List Byte)) (p : PingClient) (now : Time)
    (writes : List WriteResult) : Option SendResult :=
  let typ := if p.ipv4 then ipv4ICMPTypeEcho else ipv6ICMPTypeEchoRequest
  if p.protocol = "udp" ∧ p.ipaddr = none then none
  else
    match echoData p now with
    | none => none
    | some t =>
      let body : Echo := { ID := p.id, Seq := p.sequence, Data := t }
      let msg : Message := { Typ := typ, Code := 0, Body := .echo body }
      match Marshal msg with
      | .error e => some ⟨p, some e, [], 0⟩
      | .ok msgBytes => sendLoop p msgBytes writes

/-! ## The stop signal -/

/-- Go `close(p.done)`: closing a channel that is already closed is a run-time
panic, reported as an error. -/
def closeDone (p : PingClient) : Except String PingClient :=
  if p.doneClosed then .error "panic: close of closed channel"
  else .ok { p with doneClosed := true }

/-- Source `Stop`. -/
def Stop (p : PingClient) : Except String PingClient := closeDone p

/-- Source `New`.  `tracker` and `id` are the two values drawn from the random
source (`r.Int63n(math.MaxInt64)` and `r.Intn(math.MaxInt16)`); the channel `done` is
freshly made, hence open. -/
def New (addr : String) (tracker id : Int) : PingClient :=
  { Count := 0
    Interval := 1000000000
    RecordRtts := true
    Size := timeSliceLength + trackerLength
    Timeout := 1000000000 * 5
    Tracker := tracker
    addr := addr
    doneClosed := false
    id := id
    ipaddr := none
    ipv4 := false
    network := "ip"
    protocol := "udp"
    Debug := false
    PacketsSent := 0
    PacketsRecv := 0
    rtts := []
    OnSend := false
    OnRecv := false
    OnFinish := false
    Source := ""
    sequence := 0 }

/-! ## `float64`

`Statistics` computes the loss percentage and the standard deviation in `float64`.
A finite `float64` is kept as the exact rational number it denotes and every
operation rounds its exact result to the nearest representable value, ties to even
(IEEE 754 binary64: 53 significant bits, exponents from -1022 to 1023).  The sign of
a zero is not kept: the values converted from integers never are the negative
zero. -/

/-- A `float64` value. -/
inductive Float64 where
  | nan
  | inf (neg : Bool)
  | fin (q : ℚ)
  deriving DecidableEq

/-- Rounding of a rational to the nearest integer, ties to the even one. -/
def roundEven (x : ℚ) : Int :=
  if Int.fract x < 1 / 2 then ⌊x⌋
  else if 1 / 2 < Int.fract x then ⌊x⌋ + 1
  else if ⌊x⌋ % 2 = 0 then ⌊x⌋
  else ⌊x⌋ + 1

/-- The `float64` nearest to the rational `q`. -/
def Float64.round (q : ℚ) : Float64 :=
  if q = 0 then .fin 0
  else
    let e := max (Int.log 2 |q|) (-1022)
    let ulp : ℚ := 2 ^ (e - 52)
    let r : ℚ := roundEven (|q| / ulp) * ulp
    if 2 ^ 1024 ≤ r then .inf (decide (q < 0)) else .fin (if q < 0 then -r else r)

/-- The Go conversion `float64(n)` of an integer. -/
def Float64.ofInt (n : Int) : Float64 := Float64.round n

/-- Division of `float64` values. -/
def Float64.div : Float64 → Float64 → Float64
  | .nan, _ => .nan
  | _, .nan => .nan
  | .inf _, .inf _ => .nan
  | .inf s, .fin b => .inf (xor s (decide (b < 0)))
  | .fin _, .inf _ => .fin 0
  | .fin a, .fin b =>
    if b = 0 then (if a = 0 then .nan else .inf (decide (a < 0))) else Float64.round (a / b)

/-- Multiplication of `float64` values. -/
def Float64.mul : Float64 → Float64 → Float64
  | .nan, _ => .nan
  | _, .nan => .nan
  | .inf s, .inf t => .inf (xor s t)
  | .inf s, .fin b => if b = 0 then .nan else .inf (xor s (decide (b < 0)))
  | .fin a, .inf t => if a = 0 then .nan else .inf (xor (decide (a < 0)) t)
  | .fin a, .fin b => Float64.round (a * b)

/-- Go `math.Sqrt`: the correctly rounded square root.  With `ulp` the spacing of
the `float64` values around the root, `m` is the root in units of `ulp`, rounded
down, and the result is `m` or `m + 1` units, whichever is nearer. -/
def Float64.sqrt : Float64 → Float64
  | .nan => .nan
  | .inf neg => if neg then .nan else .inf false
  | .fin q =>
    if q < 0 then .nan
    else if q = 0 then .fin 0
    else
      let e := Int.log 2 q / 2
      let ulp : ℚ := 2 ^ (e - 52)
      let y : ℚ := q / (ulp * ulp)
      let m : Int := Nat.sqrt ⌊y⌋₊
      let half : ℚ := ((m : ℚ) + 1 / 2) * ((m : ℚ) + 1 / 2)
      let m1 : Int := if y < half then m else if half < y then m + 1
        else if m % 2 = 0 then m else m + 1
      .fin (m1 * ulp)

/-- The Go conversion `int64(f)` (and `time.Duration(f)`): the fraction is discarded.
For a NaN, an infinity or a value out of range Go leaves the result to the
implementation; the value here, `-2 ^ 63`, is the one of amd64. -/
def Float64.toInt64 : Float64 → Int
  | .fin q =>
    let t := if 0 ≤ q then ⌊q⌋ else ⌈q⌉
    if -2 ^ 63 ≤ t ∧ t < 2 ^ 63 then t else -2 ^ 63
  | _ => -2 ^ 63

/-! ## Statistics -/

/-- Source type `Statistics`. -/
structure Statistics where
  PacketsRecv : Int
  PacketsSent : Int
  PacketLoss : Float64
  IPAddr : Option IPAddr
  Addr : String
  Rtts : List Int
  MinRtt : Int
  MaxRtt : Int
  AvgRtt : Int
  StdDevRtt : Int
  deriving DecidableEq

/-- The variables `min`, `max` and `total` of `Statistics`. -/
structure Scan where
  min : Int
  max : Int
  total : Int
  deriving DecidableEq, Repr

/-- The first loop of `Statistics` (source lines 479-487), from the given values of
`min`, `max` and `total`. -/
def scanRtts (rtts : List Int) (init : Scan) : Scan :=
  rtts.foldl
    (fun s rtt =>
      { min := if rtt < s.min then rtt else s.min
        max := if rtt > s.max then rtt else s.max
        total := wrapInt64 (s.total + rtt) })
    init

/-- The second loop of `Statistics` (source lines 501-503): the sum of the squared
deviations from `avg`, in `Duration` arithmetic. -/
def sumSquares (rtts : List Int) (avg : Int) : Int :=
  rtts.foldl
    (fun sumsquares rtt =>
      wrapInt64 (sumsquares + wrapInt64 (wrapInt64 (rtt - avg) * wrapInt64 (rtt - avg))))
    0

/-- Source method `Statistics` of `PingClient`. -/
def PingClient.Statistics (p : PingClient) : Ping.Statistics :=
  let loss := Float64.mul
    (Float64.div (Float64.ofInt (wrapInt64 (p.PacketsSent - p.PacketsRecv)))
      (Float64.ofInt p.PacketsSent))
    (Float64.ofInt 100)
  let init : Scan :=
    if p.rtts.length > 0 then { min := p.rtts.headD 0, max := p.rtts.headD 0, total := 0 }
    else { min := 0, max := 0, total := 0 }
  let sc := scanRtts p.rtts init
  let s : Ping.Statistics :=
    { PacketsSent := p.PacketsSent
      PacketsRecv := p.PacketsRecv
      PacketLoss := loss
      Rtts := p.rtts
      Addr := p.addr
      IPAddr := p.ipaddr
      MaxRtt := sc.max
      MinRtt := sc.min
      AvgRtt := 0
      StdDevRtt := 0 }
  if p.rtts.length > 0 then
    let avg := sc.total.tdiv p.rtts.length
    let sumsquares := sumSquares p.rtts avg
    { s with
      AvgRtt := avg
      StdDevRtt :=
        Float64.toInt64 (Float64.sqrt (Float64.ofInt (sumsquares.tdiv p.rtts.length))) }
  else s

/-! ## Test vectors -/

/-- A fresh unprivileged IPv6 session with tracker 42 and identifier 7. -/
def sampleClient : PingClient := New "host" 42 7

/-- An instant: 1700000000.123456789 seconds after the epoch. -/
def sampleTime : Time := ⟨1700000000, 123456789⟩

/-- A received datagram: 24 bytes, hop limit 64. -/
def samplePacket : packet := ⟨[], 24, 64⟩

/-- The echo reply to the request `sampleClient` sends at `sampleTime`. -/
def sampleReply : Message :=
  ⟨ipv6ICMPTypeEchoReply, 0, .echo ⟨7, 0, (echoData sampleClient sampleTime).getD []⟩⟩

/-- An echo reply without payload. -/
def shortReply : Message := ⟨ipv6ICMPTypeEchoReply, 0, .echo ⟨7, 0, []⟩⟩

/-- An echo reply to a request of a session with tracker 43. -/
def foreignReply : Message :=
  ⟨ipv6ICMPTypeEchoReply, 0,
    .echo ⟨7, 0, (echoData (New "host" 43 7) sampleTime).getD []⟩⟩

/-- A session that recorded the round-trip times 100.147256 ms, 182.117744 ms and
17.735 ms. -/
def roundingSamples : PingClient :=
  { sampleClient with rtts := [100147256, 182117744, 17735000] }

/-- A session that recorded the round-trip times 1 ms, 3 ms and 5.000001 ms. -/
def smallSamples : PingClient :=
  { sampleClient with rtts := [1000000, 3000000, 5000001] }

/-- A fresh unprivileged session resolved to the IPv4 address 192.0.2.1. -/
def resolvedClient : PingClient :=
  { New "192.0.2.1" 42 7 with ipaddr := some ⟨[192, 0, 2, 1], ""⟩, ipv4 := true }

/-- An echo reply that carries the tracker of `sampleClient` and, as time stamp, the
instant 9223372036 seconds before the epoch (the year 1677). -/
def staleReply : Message :=
  ⟨ipv6ICMPTypeEchoReply, 0,
    .echo ⟨7, 0, timeToBytes ⟨-9223372036, 0⟩ ++ intToBytes sampleClient.Tracker⟩⟩

/-! ## `Run` -/

/-- The message `msg` that `sendICMP` builds and hands to `Marshal` (source lines
630-657); `none` when the payload cannot be built. -/
def echoRequest (p : PingClient) (now : Time) : Option Message :=
  (echoData p now).map fun t =>
    { Typ := if p.ipv4 then ipv4ICMPTypeEcho else ipv6ICMPTypeEchoRequest
      Code := 0
      Body := .echo { ID := p.id, Seq := p.sequence, Data := t } }

/-- Go `net.IP.To4`: the four-byte form of an IPv4 address, the empty slice (nil) for
any other address. -/
def To4 (ip : List Byte) : List Byte :=
  if ip.length = 4 then ip
  else if ip.length = 16 ∧ (ip.take 10).all (fun b => b = 0) ∧ ip.get? 10 = some 255
      ∧ ip.get? 11 = some 255 then (ip.drop 12).take 4
  else []

/-- Source `isIPv4`. -/
def isIPv4 (ip : List Byte) : Bool := (To4 ip).length = 4

/-- Source variable `ipv4Proto`; a key that is not in the map gives the empty
string. -/
def ipv4Proto (protocol : String) : String :=
  if protocol = "icmp" then "ip4:icmp" else if protocol = "udp" then "udp4" else ""

/-- Source variable `ipv6Proto`. -/
def ipv6Proto (protocol : String) : String :=
  if protocol = "icmp" then "ip6:ipv6-icmp" else if protocol = "udp" then "udp6" else ""

/-- Source `Resolve`: the session afterwards and the returned error.  `ResolveIPAddr`
is the library call `net.ResolveIPAddr`. -/
def Resolve (ResolveIPAddr : String → String → Except String IPAddr) (p : PingClient) :
    PingClient × Option String :=
  if p.addr.length = 0 then (p, some "addr cannot be empty")
  else
    match ResolveIPAddr p.network p.addr with
    | .error e => (p, some e)
    | .ok ipaddr => ({ p with ipv4 := isIPv4 ipaddr.IP, ipaddr := some ipaddr }, none)

/-- What the scheduler of `Run` waits for in its `select`: the channel `done` is
closed, the timeout ticker fires, the interval ticker fires (with the time and the
outcomes of the writes of the send it may start), or the receiver hands over a
packet (with the time of its processing). -/
inductive RunEvent where
  | done
  | timeout
  | interval (now : Time) (writes : List WriteResult)
  | recv (receivedAt : Time) (r : packet)
  deriving DecidableEq, Repr

/-- The state of one `Run`: the session, whether `Run` has returned and with which
error, the packets handed to `OnSend` and `OnRecv`, the snapshots handed to
`OnFinish` and the lines printed. -/
structure RunState where
  p : PingClient
  returned : Bool
  err : Option String
  onSend : List Packet
  onRecv : List Packet
  onFinish : List Statistics
  printed : List String
  deriving DecidableEq

/-- Source `finish`, the deferred call of `Run`. -/
def finish (s : RunState) : RunState :=
  { s with onFinish := s.onFinish ++ (if s.p.OnFinish then [s.p.Statistics] else []) }

/-- A `return` of `Run` after its deferred calls are registered: `finish` runs and
`Run` has returned the given error. -/
def returnWith (s : RunState) (err : Option String) : RunState :=
  finish { s with returned := true, err := err }

/-- The end of one iteration of the loop of `Run` (source lines 449-453): when a cap is
configured and reached by `PacketsRecv`, `done` is closed and `Run` returns nil.
`none` is the panic of closing a closed channel. -/
def checkRecvCount (s : RunState) : Option RunState :=
  if s.p.Count > 0 ∧ s.p.PacketsRecv ≥ s.p.Count then
    match closeDone s.p with
    | .error _ => none
    | .ok p1 => some (returnWith { s with p := p1 } none)
  else some s

/-- One iteration of the loop of `Run` (source lines 424-454) for the event the
`select` picks.  `none` is a run-time panic, or a send whose writes are not all
given.  After `Run` has returned nothing happens any more. -/
def loopStep (Marshal : Message → Except String (List Byte))
    (ParseMessage : Nat → List Byte → Except String Message) (s : RunState) :
    RunEvent → Option RunState
  | .done =>
    if s.returned then some s
    else some (returnWith { s with p := { s.p with doneClosed := true } } none)
  | .timeout =>
    if s.returned then some s
    else
      match closeDone s.p with
      | .error _ => none
      | .ok p1 => some (returnWith { s with p := p1 } none)
  | .interval now writes =>
    if s.returned then some s
    else if s.p.Count > 0 ∧ s.p.PacketsSent ≥ s.p.Count then some s
    else
      match sendICMP Marshal s.p now writes with
      | none => none
      | some r =>
        checkRecvCount
          { s with
            p := r.p
            onSend := s.onSend ++ r.onSend
            printed := s.printed ++ (match r.err with
              | some e => ["FATAL: " ++ e]
              | none => []) }
  | .recv receivedAt pkt =>
    if s.returned then some s
    else
      match processPacket ParseMessage s.p receivedAt pkt with
      | none => none
      | some r =>
        checkRecvCount
          { s with
            p := r.p
            onRecv := s.onRecv ++ r.onRecv
            printed := s.printed ++ (match r.err with
              | some e => ["FATAL: " ++ e]
              | none => []) }

/-- The loop of `Run` over the events the `select` picks, in order. -/
def runLoop (Marshal : Message → Except String (List Byte))
    (ParseMessage : Nat → List Byte → Except String Message) (s : RunState)
    (events : List RunEvent) : Option RunState :=
  events.foldlM (loopStep Marshal ParseMessage) s

/-- Source `Run`, up to the events given: the state when `Run` has returned, or the
state of the loop after the last event.  `ResolveIPAddr`, `ListenPacket` and
`SetControlMessage` are the library calls of these names, `GOOS` is `runtime.GOOS`,
`now` and `writes` belong to the first `sendICMP`.  `none` is a run-time panic (among
them that of `time.NewTicker` for a `Timeout` or an `Interval` that is not positive),
or a send whose writes are not all given. -/
def Run (Marshal : Message → Except String (List Byte))
    (ParseMessage : Nat → List Byte → Except String Message)
    (ResolveIPAddr : String → String → Except String IPAddr)
    (ListenPacket : String → String → Except String Unit)
    (SetControlMessage : Bool → Except String Unit) (GOOS : String)
    (p : PingClient) (now : Time) (writes : List WriteResult) (events : List RunEvent) :
    Option RunState :=
  let resolved := if p.ipaddr = none then Resolve ResolveIPAddr p else (p, none)
  let s0 : RunState :=
    { p := resolved.1, returned := false, err := none, onSend := [], onRecv := [],
      onFinish := [], printed := [] }
  match resolved.2 with
  | some e => some { s0 with returned := true, err := some e }
  | none =>
    match ListenPacket (if s0.p.ipv4 then ipv4Proto s0.p.protocol else ipv6Proto s0.p.protocol)
        s0.p.Source with
    | .error e =>
      match closeDone s0.p with
      | .error _ => none
      | .ok p1 => some { s0 with p := p1, returned := true, err := some e }
    | .ok _ =>
      match SetControlMessage s0.p.ipv4, decide (GOOS ≠ "windows") with
      | .error e, true => some { s0 with returned := true, err := some e }
      | _, _ =>
        match sendICMP Marshal s0.p now writes with
        | none => none
        | some r =>
          match r.err with
          | some e => some (returnWith { s0 with p := r.p, onSend := r.onSend } (some e))
          | none =>
            if r.p.Timeout ≤ 0 ∨ r.p.Interval ≤ 0 then none
            else runLoop Marshal ParseMessage { s0 with p := r.p, onSend := r.onSend } events

/-- A session with the cap `Count = 2` and an `OnSend` handler, resolved to the IPv4
address 192.0.2.1. -/
def cappedClient : PingClient :=
  { resolvedClient with Count := 2, OnSend := true }

/-- The outcome C11 describes for one call of `sendICMP` whose message is `msgBytes`
and that makes `writes` calls of `conn.WriteTo`: one more packet sent, the next
sequence number, no error, and `OnSend` (when set) called once with the sequence number
the call started with. -/
def sentOnce (p : PingClient) (msgBytes : List Byte) (writes : Nat) : SendResult :=
  ⟨{ p with PacketsSent := p.PacketsSent + 1, sequence := p.sequence + 1 }, none,
    if p.OnSend then
      [{ Rtt := 0, IPAddr := p.ipaddr, Addr := p.addr, Nbytes := msgBytes.length,
         Seq := p.sequence, Ttl := 0 }]
    else [],
    writes⟩

theorem wrapInt64_range (x : Int) : -2 ^ 63 ≤ wrapInt64 x ∧ wrapInt64 x < 2 ^ 63 := by
  unfold wrapInt64; omega

theorem wrapInt64_of_range (x : Int) (h1 : -2 ^ 63 ≤ x) (h2 : x < 2 ^ 63) : wrapInt64 x = x := by
  unfold wrapInt64; omega

theorem wrapInt64_add_left (a b : Int) : wrapInt64 (wrapInt64 a + b) = wrapInt64 (a + b) := by
  unfold wrapInt64; omega

theorem wrapInt64_add_right (a b : Int) : wrapInt64 (a + wrapInt64 b) = wrapInt64 (a + b) := by
  unfold wrapInt64; omega

theorem toByte_val (x : Int) : ((toByte x).val : Int) = x % 256 := by
  simp only [toByte]
  omega

theorem toByte_val_nat (x : Nat) : (toByte (x : Int)).val = x % 256 := by
  simp only [toByte]
  omega

/-- Truncated division by a positive number, in terms of floor division. -/
theorem tdiv_pos_eq (n b : Int) (hb : 0 < b) :
    n.tdiv b = if 0 ≤ n then n / b else -((-n) / b) := by
  split_ifs with h
  · exact Int.tdiv_eq_ediv h (le_of_lt hb)
  · have h1 : (-n).tdiv b = (-n) / b := Int.tdiv_eq_ediv (by omega) (le_of_lt hb)
    rw [Int.neg_tdiv] at h1
    omega

/-! ## Codec lemmas -/

theorem BigEndian_roundtrip (v : Nat) (rest : List Byte) :
    BigEndianUint64 (BigEndianPutUint64 v ++ rest) = some (v % 2 ^ 64) := by
  simp only [BigEndianPutUint64, BigEndianUint64, List.cons_append, List.nil_append,
    Option.some.injEq]
  have h : ∀ k : Nat, (toByte (((v / k : Nat) : Int))).val = (v / k) % 256 :=
    fun k => toByte_val_nat _
  have h0 : (toByte (v : Int)).val = v % 256 := toByte_val_nat _
  have e : ∀ k : Nat, ((v : Int) / (k : Int)) = ((v / k : Nat) : Int) := fun k => by
    push_cast; rfl
  have := e (2 ^ 56)
  have := e (2 ^ 48)
  have := e (2 ^ 40)
  have := e (2 ^ 32)
  have := e (2 ^ 24)
  have := e (2 ^ 16)
  have := e (2 ^ 8)
  simp only [Nat.cast_pow, Nat.cast_ofNat] at *
  simp only [*]
  omega

theorem bytesToInt_intToBytes (T : Int) (rest : List Byte) (h1 : -2 ^ 63 ≤ T)
    (h2 : T < 2 ^ 63) : bytesToInt (intToBytes T ++ rest) = some T := by
  simp only [intToBytes, bytesToInt, BigEndian_roundtrip, Option.map_some', Option.some.injEq]
  unfold wrapInt64
  push_cast
  omega

theorem Unix_tdiv_tmod (n : Int) (h1 : -2 ^ 63 ≤ n) (h2 : n < 2 ^ 63) :
    (Unix (n.tdiv 1000000000) (n.tmod 1000000000)).sec * 1000000000
        + (Unix (n.tdiv 1000000000) (n.tmod 1000000000)).nsec = n
      ∧ 0 ≤ (Unix (n.tdiv 1000000000) (n.tmod 1000000000)).nsec
      ∧ (Unix (n.tdiv 1000000000) (n.tmod 1000000000)).nsec < 1000000000 := by
  have e := Int.tdiv_add_tmod n 1000000000
  have hq := tdiv_pos_eq n 1000000000 (by norm_num)
  generalize n.tdiv 1000000000 = q at *
  generalize n.tmod 1000000000 = r at *
  have hz := tdiv_pos_eq r 1000000000 (by norm_num)
  have hz0 : r.tdiv 1000000000 = 0 := by
    rw [hz]; split_ifs at hq ⊢ <;> omega
  unfold Unix
  rw [hz0]
  by_cases hr : r < 0
  · have c1 : (r < 0 ∨ r ≥ 1000000000) := Or.inl hr
    have c2 : wrapInt64 (r - wrapInt64 (0 * 1000000000)) < 0 := by unfold wrapInt64; omega
    simp only [c1, c2, if_true]
    unfold wrapInt64
    split_ifs at hq <;> omega
  · have c1 : ¬ (r < 0 ∨ r ≥ 1000000000) := by
      split_ifs at hq <;> omega
    simp only [c1, if_false]
    split_ifs at hq <;> omega

theorem bytesToTime_timeToBytes (t : Time) (rest : List Byte) :
    ∃ tm, bytesToTime (timeToBytes t ++ rest) = some tm
      ∧ tm.sec * 1000000000 + tm.nsec = t.UnixNano
      ∧ 0 ≤ tm.nsec ∧ tm.nsec < 1000000000 := by
  have hr := wrapInt64_range (wrapInt64 (t.sec * 1000000000) + t.nsec)
  simp only [timeToBytes, bytesToTime, Time.UnixNano]
  generalize wrapInt64 (wrapInt64 (t.sec * 1000000000) + t.nsec) = n at hr ⊢
  have hl : List.range 8 = [0, 1, 2, 3, 4, 5, 6, 7] := by decide
  simp only [hl, List.map, List.foldlM, List.get?, Option.map_some', Option.bind_eq_bind,
    Option.some_bind, Option.pure_def, List.cons_append]
  refine ⟨_, rfl, ?_⟩
  have key : ∀ x y : Int, x = y →
      Unix (x.tdiv 1000000000) (x.tmod 1000000000)
        = Unix (y.tdiv 1000000000) (y.tmod 1000000000) := by
    intro x y h; rw [h]
  rw [key _ n]
  · exact Unix_tdiv_tmod n hr.1 hr.2
  · simp only [wrapInt64_add_left, wrapInt64_add_right, toByte_val]
    norm_num
    unfold wrapInt64
    omega

theorem timeToBytes_length (t : Time) : (timeToBytes t).length = 8 := by
  simp [timeToBytes]

theorem intToBytes_length (T : Int) : (intToBytes T).length = 8 := by
  simp [intToBytes, BigEndianPutUint64]

/-! ## C1, C2: reply correlation -/

/-- What `processPacket` does with a decoded message whose type belongs to the
protocol it was decoded for: the call does not panic, a message that is accepted is
counted once, and any other message leaves the session as it was, invokes no handler
and yields an error exactly when it is an echo reply that passed the identifier check
with a short payload or whose body is not an echo. -/
theorem processPacket_cases (ParseMessage : Nat → List Byte → Except String Message)
    (p : PingClient) (receivedAt : Time) (recv : packet) (m : Message)
    (hparse : ParseMessage (if p.ipv4 then protocolICMP else protocolIPv6ICMP) recv.bytes
      = .ok m)
    (hproto : m.Typ.Protocol = (if p.ipv4 then protocolICMP else protocolIPv6ICMP)) :
    ∃ r, processPacket ParseMessage p receivedAt recv = some r
      ∧ (AcceptedBySpec p m → r.p.PacketsRecv = p.PacketsRecv + 1 ∧ r.err = none)
      ∧ (¬ AcceptedBySpec p m → r.p = p ∧ r.onRecv = []
          ∧ (r.err ≠ none ↔
              m.Typ = (if p.ipv4 then ipv4ICMPTypeEchoReply else ipv6ICMPTypeEchoReply)
                ∧ match m.Body with
                  | .echo pkt => (p.protocol = "icmp" → pkt.ID = p.id) ∧ pkt.Data.length < 16
                  | .other => True)) := by
  obtain ⟨typ, code, body⟩ := m
  have hty : (typ ≠ ipv4ICMPTypeEchoReply ∧ typ ≠ ipv6ICMPTypeEchoReply) ↔
      ¬ typ = (if p.ipv4 then ipv4ICMPTypeEchoReply else ipv6ICMPTypeEchoReply) := by
    cases typ <;> cases hv : p.ipv4 <;>
      simp [hv, ICMPType.Protocol, protocolICMP, protocolIPv6ICMP, ipv4ICMPTypeEchoReply,
        ipv6ICMPTypeEchoReply] at hproto ⊢
  simp only [processPacket, hparse]
  by_cases h1 : typ ≠ ipv4ICMPTypeEchoReply ∧ typ ≠ ipv6ICMPTypeEchoReply
  · have h1' := hty.1 h1
    rw [if_pos h1]
    refine ⟨_, rfl, ?_, ?_⟩
    · intro ha; exact absurd ha.1 h1'
    · intro _; simp [h1']
  · have h1' : typ = (if p.ipv4 then ipv4ICMPTypeEchoReply else ipv6ICMPTypeEchoReply) := by
      by_contra hc; exact h1 (hty.2 hc)
    rw [if_neg h1]
    cases body with
    | other =>
      refine ⟨_, rfl, ?_, ?_⟩
      · intro ha; exact absurd ha.2 (by simp)
      · intro _; simp [h1']
    | echo pkt =>
      by_cases h2 : p.protocol = "icmp" ∧ pkt.ID ≠ p.id
      · simp only []
        rw [if_pos h2]
        refine ⟨_, rfl, ?_, ?_⟩
        · intro ha; exact absurd (ha.2.1 h2.1) h2.2
        · intro _; simp [h2.1, h2.2]
      · have h2' : p.protocol = "icmp" → pkt.ID = p.id := by
          intro hp; by_contra hc; exact h2 ⟨hp, hc⟩
        simp only []
        rw [if_neg h2]
        by_cases h3 : pkt.Data.length < timeSliceLength + trackerLength
        · rw [if_pos h3]
          have h3' : pkt.Data.length < 16 := h3
          refine ⟨_, rfl, ?_, ?_⟩
          · intro ha; have := ha.2.2.1; omega
          · intro _
            simp [h1', h3']
            exact h2'
        · rw [if_neg h3]
          have h3' : 16 ≤ pkt.Data.length := by
            simp only [timeSliceLength, trackerLength] at h3; omega
          obtain ⟨tracker, htr⟩ : ∃ tracker,
              bytesToInt (pkt.Data.drop timeSliceLength) = some tracker := by
            have hl : 8 ≤ (pkt.Data.drop timeSliceLength).length := by
              simp only [List.length_drop, timeSliceLength]; omega
            generalize pkt.Data.drop timeSliceLength = d at hl
            match d, hl with
            | b0 :: b1 :: b2 :: b3 :: b4 :: b5 :: b6 :: b7 :: _, _ =>
              exact ⟨_, rfl⟩
          obtain ⟨timestamp, hts⟩ : ∃ timestamp,
              bytesToTime (pkt.Data.take timeSliceLength) = some timestamp := by
            have hl : 8 ≤ (pkt.Data.take timeSliceLength).length := by
              simp only [List.length_take, timeSliceLength]; omega
            generalize pkt.Data.take timeSliceLength = d at hl
            match d, hl with
            | b0 :: b1 :: b2 :: b3 :: b4 :: b5 :: b6 :: b7 :: _, _ =>
              have hr : List.range 8 = [0, 1, 2, 3, 4, 5, 6, 7] := by decide
              simp only [bytesToTime, hr, List.foldlM, List.get?, Option.map_some',
                Option.bind_eq_bind, Option.some_bind, Option.pure_def]
              exact ⟨_, rfl⟩
          rw [htr, hts]
          simp only []
          by_cases h4 : tracker ≠ p.Tracker
          · rw [if_pos h4]
            refine ⟨_, rfl, ?_, ?_⟩
            · intro ha
              have := ha.2.2.2
              simp only [timeSliceLength] at htr
              rw [htr] at this
              exact absurd (Option.some.inj this) h4
            · intro _; simp [h1', h2', h3']
          · rw [if_neg h4]
            have h4' : tracker = p.Tracker := by
              by_contra hc; exact h4 hc
            refine ⟨_, rfl, ?_, ?_⟩
            · intro _
              refine ⟨?_, rfl⟩
              split_ifs <;> rfl
            · intro hna
              exfalso
              apply hna
              refine ⟨h1', h2', h3', ?_⟩
              simp only [timeSliceLength] at htr
              rw [htr, h4']

/-- C1.  For every session and every message decoded for the session's protocol,
`processPacket` returns, and `PacketsRecv` grows by exactly one exactly when the
message is accepted (echo-reply type of the session's family, identifier equal to the
session's when privileged, payload of at least sixteen bytes, tracker at offset eight
equal to the session tracker); otherwise `PacketsRecv` is unchanged, in particular
whenever the tracker differs. -/
theorem processPacket_counts_iff_accepted
    (ParseMessage : Nat → List Byte → Except String Message)
    (p : PingClient) (receivedAt : Time) (recv : packet) (m : Message)
    (hparse : ParseMessage (if p.ipv4 then protocolICMP else protocolIPv6ICMP) recv.bytes
      = .ok m)
    (hproto : m.Typ.Protocol = (if p.ipv4 then protocolICMP else protocolIPv6ICMP)) :
    ∃ r, processPacket ParseMessage p receivedAt recv = some r
      ∧ (r.p.PacketsRecv = p.PacketsRecv + 1 ↔ AcceptedBySpec p m)
      ∧ (¬ AcceptedBySpec p m → r.p.PacketsRecv = p.PacketsRecv)
      ∧ (∀ pkt, m.Body = .echo pkt → bytesToInt (pkt.Data.drop 8) ≠ some p.Tracker →
          r.p.PacketsRecv = p.PacketsRecv) := by
  obtain ⟨r, hr, hacc, hrej⟩ := processPacket_cases ParseMessage p receivedAt recv m hparse hproto
  refine ⟨r, hr, ⟨?_, fun ha => (hacc ha).1⟩, fun hna => by rw [(hrej hna).1], ?_⟩
  · intro hcount
    by_contra hna
    rw [(hrej hna).1] at hcount
    omega
  · intro pkt hbody htr
    have hna : ¬ AcceptedBySpec p m := by
      intro ha
      have h2 := ha.2
      rw [hbody] at h2
      exact htr h2.2.2
    rw [(hrej hna).1]

/-- Witness for C1: an unprivileged IPv6 session receives the echo of its own payload. -/
theorem processPacket_counts_iff_accepted_witness :
    AcceptedBySpec sampleClient sampleReply
      ∧ ∃ r, processPacket (fun _ _ => .ok sampleReply) sampleClient sampleTime samplePacket
          = some r
        ∧ (r.p.PacketsRecv = sampleClient.PacketsRecv + 1
            ↔ AcceptedBySpec sampleClient sampleReply)
        ∧ (¬ AcceptedBySpec sampleClient sampleReply →
            r.p.PacketsRecv = sampleClient.PacketsRecv)
        ∧ (∀ pkt, sampleReply.Body = .echo pkt →
            bytesToInt (pkt.Data.drop 8) ≠ some sampleClient.Tracker →
            r.p.PacketsRecv = sampleClient.PacketsRecv) :=
  ⟨by decide,
    processPacket_counts_iff_accepted (fun _ _ => .ok sampleReply) sampleClient sampleTime
      samplePacket sampleReply rfl rfl⟩

/-- C2, as stated, fails: an echo reply with an empty payload is not accepted, and
`processPacket` answers it with the error "insufficient data received". -/
theorem processPacket_short_payload_error :
    ¬ AcceptedBySpec sampleClient shortReply
      ∧ processPacket (fun _ _ => .ok shortReply) sampleClient sampleTime samplePacket
        = some ⟨sampleClient, some "insufficient data received", []⟩ := by
  constructor
  · intro h
    have := h.2
    simp [shortReply] at this
  · rfl

/-- C2, amended.  For every message decoded for the session's protocol that is not
accepted, `processPacket` returns, leaves the session (so `PacketsRecv` and the
recorded round-trip times) unchanged and does not invoke `OnRecv`; the returned error
is nil for a wrong type, a wrong identifier in privileged mode and a tracker mismatch,
and is not nil exactly for an echo-reply type whose body passed the identifier check
with fewer than sixteen payload bytes, or whose body is not an echo. -/
theorem processPacket_rejected (ParseMessage : Nat → List Byte → Except String Message)
    (p : PingClient) (receivedAt : Time) (recv : packet) (m : Message)
    (hparse : ParseMessage (if p.ipv4 then protocolICMP else protocolIPv6ICMP) recv.bytes
      = .ok m)
    (hproto : m.Typ.Protocol = (if p.ipv4 then protocolICMP else protocolIPv6ICMP))
    (hrej : ¬ AcceptedBySpec p m) :
    ∃ r, processPacket ParseMessage p receivedAt recv = some r
      ∧ r.p.PacketsRecv = p.PacketsRecv ∧ r.p.rtts = p.rtts ∧ r.p = p ∧ r.onRecv = []
      ∧ (r.err ≠ none ↔
          m.Typ = (if p.ipv4 then ipv4ICMPTypeEchoReply else ipv6ICMPTypeEchoReply)
            ∧ match m.Body with
              | .echo pkt => (p.protocol = "icmp" → pkt.ID = p.id) ∧ pkt.Data.length < 16
              | .other => True) := by
  obtain ⟨r, hr, _, h⟩ := processPacket_cases ParseMessage p receivedAt recv m hparse hproto
  obtain ⟨hp, hon, herr⟩ := h hrej
  exact ⟨r, hr, by rw [hp], by rw [hp], hp, hon, herr⟩

/-- Witness for C2 amended: a reply carrying another tracker is dropped silently. -/
theorem processPacket_rejected_witness :
    ¬ AcceptedBySpec sampleClient foreignReply
      ∧ ∃ r, processPacket (fun _ _ => .ok foreignReply) sampleClient sampleTime samplePacket
          = some r
        ∧ r.p.PacketsRecv = sampleClient.PacketsRecv ∧ r.p.rtts = sampleClient.rtts
        ∧ r.p = sampleClient ∧ r.onRecv = []
        ∧ (r.err ≠ none ↔
            foreignReply.Typ
                = (if sampleClient.ipv4 then ipv4ICMPTypeEchoReply else ipv6ICMPTypeEchoReply)
              ∧ match foreignReply.Body with
                | .echo pkt =>
                  (sampleClient.protocol = "icmp" → pkt.ID = sampleClient.id)
                    ∧ pkt.Data.length < 16
                | .other => True) :=
  have h : ¬ AcceptedBySpec sampleClient foreignReply := by decide
  ⟨h, processPacket_rejected (fun _ _ => .ok foreignReply) sampleClient sampleTime
    samplePacket foreignReply rfl rfl h⟩

/-! ## C3: the payload round trip -/

/-- For a `Size` from sixteen above the smallest `int` up to `maxAlloc`, the payload is
built: time stamp, tracker, then the filler. -/
theorem echoData_in_range (p : PingClient) (now : Time)
    (hSize : -2 ^ 63 + 16 ≤ p.Size ∧ p.Size ≤ 2 ^ 48) :
    ∃ rest : List Byte,
      echoData p now = some ((timeToBytes now ++ intToBytes p.Tracker) ++ rest) := by
  have hlen : ((timeToBytes now ++ intToBytes p.Tracker).length : Int) = 16 := by
    simp [timeToBytes_length, intToBytes_length]
  have hw : wrapInt64 (wrapInt64 (p.Size - (timeSliceLength : Nat)) - (trackerLength : Nat))
      = p.Size - 16 := by
    simp only [timeSliceLength, trackerLength]
    unfold wrapInt64
    omega
  simp only [echoData, hw, hlen, maxAlloc]
  split_ifs with h1 h2
  · exfalso; omega
  · exact ⟨_, rfl⟩
  · exact ⟨[], by rw [List.append_nil]⟩

/-- For any other `Size` of the `int` range no payload is built: below, the filler count
wraps around to a number above `maxAlloc`; above, the payload with its filler is longer
than `maxAlloc`. -/
theorem echoData_out_of_range (p : PingClient) (now : Time)
    (hSize : (-2 ^ 63 ≤ p.Size ∧ p.Size < -2 ^ 63 + 16) ∨ (2 ^ 48 < p.Size ∧ p.Size < 2 ^ 63)) :
    echoData p now = none := by
  have hlen : ((timeToBytes now ++ intToBytes p.Tracker).length : Int) = 16 := by
    simp [timeToBytes_length, intToBytes_length]
  have hw : wrapInt64 (wrapInt64 (p.Size - (timeSliceLength : Nat)) - (trackerLength : Nat))
      = if p.Size < -2 ^ 63 + 16 then p.Size - 16 + 2 ^ 64 else p.Size - 16 := by
    simp only [timeSliceLength, trackerLength]
    unfold wrapInt64
    split_ifs <;> omega
  simp only [echoData, hw, hlen, maxAlloc]
  split_ifs <;> first | rfl | (exfalso; omega)

/-- C3, as stated, fails: for `Size` equal to the smallest `int` the filler count
`Size - 8 - 8` wraps around to `2 ^ 63 - 16`, a positive number, the filler of that
many bytes cannot be allocated, and `sendICMP` panics: it builds no payload and sends
nothing. -/
theorem echoData_extreme_size_panics :
    wrapInt64 (wrapInt64 (-9223372036854775808 - timeSliceLength) - trackerLength)
        = 9223372036854775792
      ∧ echoData { sampleClient with Size := -9223372036854775808 } sampleTime = none
      ∧ sendICMP (fun _ => .ok []) { resolvedClient with Size := -9223372036854775808 }
          sampleTime [.ok 24] = none := by
  refine ⟨by decide, by decide, ?_⟩
  have h : echoData { resolvedClient with Size := -9223372036854775808 } sampleTime = none := by
    decide
  simp only [sendICMP, h]
  decide

/-- C3, amended.  For every tracker and send time of the `int64` range and every `Size`
from sixteen above the smallest `int` up to `2 ^ 48` (sizes below sixteen included), the
payload built by `sendICMP` has at least sixteen bytes, and decoding it the way
`processPacket` does gives the tracker back from offset eight and, from the first
eight bytes, the instant whose nanosecond count is that of the send time; the same
holds for the bare encodings without padding. -/
theorem echoData_roundtrip (p : PingClient) (now : Time)
    (hT : -2 ^ 63 ≤ p.Tracker ∧ p.Tracker < 2 ^ 63)
    (hSize : -2 ^ 63 + 16 ≤ p.Size ∧ p.Size ≤ 2 ^ 48) :
    (∃ data, echoData p now = some data
        ∧ 16 ≤ data.length
        ∧ bytesToInt (data.drop timeSliceLength) = some p.Tracker
        ∧ ∃ tm, bytesToTime (data.take timeSliceLength) = some tm
            ∧ tm.sec * 1000000000 + tm.nsec = now.UnixNano
            ∧ 0 ≤ tm.nsec ∧ tm.nsec < 1000000000 ∧ tm.UnixNano = now.UnixNano)
      ∧ bytesToInt (intToBytes p.Tracker) = some p.Tracker
      ∧ (bytesToTime (timeToBytes now)).map Time.UnixNano = some now.UnixNano := by
  have hlen := timeToBytes_length now
  have hlen2 := intToBytes_length p.Tracker
  have hnano : ∀ tm : Time, tm.sec * 1000000000 + tm.nsec = now.UnixNano →
      tm.UnixNano = now.UnixNano := by
    intro tm h
    have hr := wrapInt64_range (wrapInt64 (now.sec * 1000000000) + now.nsec)
    have : tm.UnixNano = wrapInt64 (tm.sec * 1000000000 + tm.nsec) := by
      unfold Time.UnixNano; rw [wrapInt64_add_left]
    rw [this, h]
    exact wrapInt64_of_range _ (by unfold Time.UnixNano; exact hr.1)
      (by unfold Time.UnixNano; exact hr.2)
  have hdrop : ∀ rest : List Byte,
      ((timeToBytes now ++ intToBytes p.Tracker) ++ rest).drop timeSliceLength
        = intToBytes p.Tracker ++ rest := by
    intro rest
    rw [List.append_assoc, List.drop_append_of_le_length (by rw [hlen]; decide)]
    rw [List.drop_of_length_le (by rw [hlen]; decide), List.nil_append]
  have htake : ∀ rest : List Byte,
      ((timeToBytes now ++ intToBytes p.Tracker) ++ rest).take timeSliceLength
        = timeToBytes now ++ [] := by
    intro rest
    rw [List.append_assoc, List.take_append_of_le_length (by rw [hlen]; decide)]
    rw [List.take_of_length_le (by rw [hlen]; decide), List.append_nil]
  obtain ⟨rest, hrest⟩ := echoData_in_range p now hSize
  obtain ⟨tm, h1, h2, h3, h4⟩ := bytesToTime_timeToBytes now []
  refine ⟨⟨_, hrest, ?_, ?_, ⟨tm, ?_, h2, h3, h4, hnano tm h2⟩⟩, ?_, ?_⟩
  · simp only [List.length_append, hlen, hlen2]
    omega
  · rw [hdrop]
    exact bytesToInt_intToBytes _ _ hT.1 hT.2
  · rw [htake]
    exact h1
  · have := bytesToInt_intToBytes p.Tracker [] hT.1 hT.2
    rwa [List.append_nil] at this
  · rw [List.append_nil] at h1
    rw [h1, Option.map_some', hnano tm h2]

/-- Witness for C3 amended: a session with `Size` 20 (four filler bytes), a tracker
with the top payload bit set and a send time before the epoch. -/
theorem echoData_roundtrip_witness :
    (-2 ^ 63 ≤ ({ New "host" (-5) 7 with Size := 20 }).Tracker
        ∧ ({ New "host" (-5) 7 with Size := 20 }).Tracker < 2 ^ 63)
      ∧ (-2 ^ 63 + 16 ≤ ({ New "host" (-5) 7 with Size := 20 }).Size
        ∧ ({ New "host" (-5) 7 with Size := 20 }).Size ≤ 2 ^ 48)
      ∧ ∃ data, echoData { New "host" (-5) 7 with Size := 20 } ⟨-1, 5⟩ = some data
        ∧ 16 ≤ data.length
        ∧ bytesToInt (data.drop timeSliceLength)
            = some ({ New "host" (-5) 7 with Size := 20 }).Tracker
        ∧ ∃ tm, bytesToTime (data.take timeSliceLength) = some tm
            ∧ tm.sec * 1000000000 + tm.nsec = (⟨-1, 5⟩ : Time).UnixNano
            ∧ 0 ≤ tm.nsec ∧ tm.nsec < 1000000000
            ∧ tm.UnixNano = (⟨-1, 5⟩ : Time).UnixNano :=
  ⟨by decide, by decide,
    (echoData_roundtrip { New "host" (-5) 7 with Size := 20 } ⟨-1, 5⟩ (by decide)
      (by decide)).1⟩

/-! ## `float64` lemmas -/

theorem roundEven_intCast (k : Int) : roundEven (k : ℚ) = k := by
  simp [roundEven]

theorem roundEven_bounds (x : ℚ) : ⌊x⌋ ≤ roundEven x ∧ roundEven x ≤ ⌊x⌋ + 1 := by
  unfold roundEven
  split_ifs <;> constructor <;> omega

theorem Float64.round_zero : Float64.round 0 = .fin 0 := by
  simp [Float64.round]

/-- A positive rational that is a whole number of units in the last place, below the
overflow threshold, is a `float64` and rounds to itself. -/
theorem Float64.round_exact (q : ℚ) (hq : 0 < q) (k : Int)
    (hk : q / 2 ^ (max (Int.log 2 q) (-1022) - 52) = k) (hlt : q < 2 ^ 1024) :
    Float64.round q = .fin q := by
  have habs : |q| = q := abs_of_pos hq
  have hne : (2 : ℚ) ^ (max (Int.log 2 q) (-1022) - 52) ≠ 0 := by positivity
  have hr : (roundEven (q / 2 ^ (max (Int.log 2 q) (-1022) - 52)) : ℚ)
      * 2 ^ (max (Int.log 2 q) (-1022) - 52) = q := by
    rw [hk, roundEven_intCast, ← hk, div_mul_cancel₀ _ hne]
  simp only [Float64.round, hq.ne', if_false, habs, hr, not_le.2 hlt, not_lt.2 hq.le]

theorem Float64.round_one : Float64.round 1 = .fin 1 := by
  refine Float64.round_exact 1 one_pos (2 ^ 52) ?_ (by norm_num)
  rw [Int.log_one_right]
  norm_num

/-- The conversion of a natural number below `2 ^ 53` is exact. -/
theorem Float64.round_natCast (m : Nat) (hm : m < 2 ^ 53) :
    Float64.round (m : ℚ) = .fin m := by
  rcases Nat.eq_zero_or_pos m with h0 | hpos
  · subst h0; simpa using Float64.round_zero
  have hL : Nat.log 2 m < 53 := Nat.log_lt_of_lt_pow hpos.ne' hm
  have hq : (0 : ℚ) < m := by exact_mod_cast hpos
  refine Float64.round_exact m hq ((m * 2 ^ (52 - Nat.log 2 m) : Nat) : Int) ?_ ?_
  · rw [Int.log_natCast]
    have hmax : max (Nat.log 2 m : Int) (-1022) = Nat.log 2 m := by omega
    rw [hmax]
    have he : ((Nat.log 2 m : Int) - 52) = -((52 - Nat.log 2 m : Nat) : Int) := by omega
    rw [he, zpow_neg, zpow_natCast]
    push_cast
    field_simp
  · calc (m : ℚ) < 2 ^ 53 := by exact_mod_cast hm
      _ < 2 ^ 1024 := by norm_num

theorem Float64.ofInt_natCast (m : Nat) (hm : m < 2 ^ 53) :
    Float64.ofInt (m : Int) = .fin m := by
  unfold Float64.ofInt
  rw [Int.cast_natCast]
  exact Float64.round_natCast m hm

/-- The conversion of a positive `int64` is a positive finite number. -/
theorem Float64.ofInt_pos (n : Int) (h1 : 0 < n) (h2 : n < 2 ^ 63) :
    ∃ x : ℚ, 0 < x ∧ Float64.ofInt n = .fin x := by
  obtain ⟨m, rfl⟩ := Int.eq_ofNat_of_zero_le h1.le
  have hpos : 0 < m := by exact_mod_cast h1
  have hm : m < 2 ^ 63 := by exact_mod_cast h2
  have hL : Nat.log 2 m < 63 := Nat.log_lt_of_lt_pow hpos.ne' hm
  have hq : (0 : ℚ) < m := by exact_mod_cast hpos
  have hmax : max (Nat.log 2 m : Int) (-1022) = Nat.log 2 m := by omega
  set ulp : ℚ := 2 ^ ((Nat.log 2 m : Int) - 52) with hulp
  have hulp0 : 0 < ulp := by positivity
  have hulp1 : ulp ≤ 2 ^ (10 : Int) := by
    rw [hulp]
    exact zpow_le_zpow_right₀ (by norm_num) (by omega)
  have hge : (1 : ℚ) ≤ m / ulp := by
    rw [le_div_iff₀ hulp0, one_mul]
    have h52 : ulp ≤ 2 ^ (Nat.log 2 m : Int) := by
      rw [hulp]
      exact zpow_le_zpow_right₀ (by norm_num) (by omega)
    have : (2 : ℚ) ^ (Nat.log 2 m : Int) ≤ m := by
      rw [zpow_natCast]
      exact_mod_cast Nat.pow_log_le_self 2 hpos.ne'
    linarith
  obtain ⟨hb1, hb2⟩ := roundEven_bounds (m / ulp)
  have hfl : 1 ≤ ⌊(m : ℚ) / ulp⌋ := Int.le_floor.2 (by exact_mod_cast hge)
  have hre : (1 : ℚ) ≤ roundEven (m / ulp) := by exact_mod_cast le_trans hfl hb1
  have hre2 : (roundEven (m / ulp) : ℚ) ≤ m / ulp + 1 := by
    have : ((⌊(m : ℚ) / ulp⌋ : Int) : ℚ) ≤ m / ulp := Int.floor_le _
    have h3 : (roundEven (m / ulp) : ℚ) ≤ (⌊(m : ℚ) / ulp⌋ : ℚ) + 1 := by exact_mod_cast hb2
    linarith
  refine ⟨roundEven (m / ulp) * ulp, by positivity, ?_⟩
  have hlt : ¬ (2 : ℚ) ^ 1024 ≤ roundEven (m / ulp) * ulp := by
    rw [not_le]
    have h4 : (roundEven (m / ulp) : ℚ) * ulp ≤ m + ulp := by
      calc (roundEven (m / ulp) : ℚ) * ulp ≤ (m / ulp + 1) * ulp :=
            mul_le_mul_of_nonneg_right hre2 hulp0.le
        _ = m + ulp := by field_simp
    have h5 : (m : ℚ) < 2 ^ 63 := by exact_mod_cast hm
    have h6 : (2 : ℚ) ^ (10 : Int) = 1024 := by norm_num
    have h7 : (2 : ℚ) ^ 63 + 1024 < 2 ^ 1024 := by norm_num
    linarith
  simp only [Float64.ofInt, Int.cast_natCast, Float64.round, hq.ne', if_false, abs_of_pos hq,
    Int.log_natCast, hmax, ← hulp, hlt, not_lt.2 hq.le]

theorem Float64.div_self_fin (x : ℚ) (hx : x ≠ 0) :
    Float64.div (.fin x) (.fin x) = .fin 1 := by
  simp only [Float64.div, hx, if_false, div_self hx, Float64.round_one]

theorem Float64.zero_div_fin (x : ℚ) (hx : x ≠ 0) :
    Float64.div (.fin 0) (.fin x) = .fin 0 := by
  simp only [Float64.div, hx, if_false, zero_div, Float64.round_zero]

theorem Float64.ofInt_hundred : Float64.ofInt 100 = .fin 100 := by
  have := Float64.ofInt_natCast 100 (by norm_num)
  simpa using this

theorem Float64.ofInt_zero : Float64.ofInt 0 = .fin 0 := by
  simp [Float64.ofInt, Float64.round_zero]

/-! ## C4, C5: the loss percentage -/

theorem Statistics_PacketLoss_eq (p : PingClient) :
    p.Statistics.PacketLoss = Float64.mul
      (Float64.div (Float64.ofInt (wrapInt64 (p.PacketsSent - p.PacketsRecv)))
        (Float64.ofInt p.PacketsSent))
      (Float64.ofInt 100) := by
  unfold PingClient.Statistics
  simp only []
  split_ifs <;> rfl

/-- C4.  For every session with `0 < PacketsSent` (and both counters valid
non-negative `int` values), `PacketLoss` is `(PacketsSent - PacketsRecv) / PacketsSent
* 100` evaluated in `float64`; when the counters are below `2 ^ 53` and nothing more
was received than sent, that is the exact quotient rounded to `float64`, times 100.
With `PacketsRecv = 0` the loss is exactly 100, with `PacketsRecv = PacketsSent`
exactly 0. -/
theorem Statistics_PacketLoss (p : PingClient) (h0 : 0 < p.PacketsSent)
    (h1 : p.PacketsSent < 2 ^ 63) (h2 : 0 ≤ p.PacketsRecv) (h3 : p.PacketsRecv < 2 ^ 63) :
    p.Statistics.PacketLoss = Float64.mul
        (Float64.div (Float64.ofInt (p.PacketsSent - p.PacketsRecv))
          (Float64.ofInt p.PacketsSent))
        (.fin 100)
      ∧ (p.PacketsRecv ≤ p.PacketsSent → p.PacketsSent < 2 ^ 53 →
          p.Statistics.PacketLoss = Float64.mul
            (Float64.round
              (((p.PacketsSent - p.PacketsRecv : Int) : ℚ) / ((p.PacketsSent : Int) : ℚ)))
            (.fin 100))
      ∧ (p.PacketsRecv = 0 → p.Statistics.PacketLoss = .fin 100)
      ∧ (p.PacketsRecv = p.PacketsSent → p.Statistics.PacketLoss = .fin 0) := by
  have hw : wrapInt64 (p.PacketsSent - p.PacketsRecv) = p.PacketsSent - p.PacketsRecv :=
    wrapInt64_of_range _ (by omega) (by omega)
  have hloss := Statistics_PacketLoss_eq p
  rw [hw, Float64.ofInt_hundred] at hloss
  obtain ⟨x, hx0, hx⟩ := Float64.ofInt_pos p.PacketsSent h0 h1
  refine ⟨hloss, ?_, ?_, ?_⟩
  · intro hle h53
    obtain ⟨s, hs⟩ := Int.eq_ofNat_of_zero_le h0.le
    obtain ⟨d, hd⟩ := Int.eq_ofNat_of_zero_le (show 0 ≤ p.PacketsSent - p.PacketsRecv by omega)
    have hs53 : s < 2 ^ 53 := by
      have : (s : Int) < 2 ^ 53 := by rw [← hs]; exact h53
      exact_mod_cast this
    have hd53 : d < 2 ^ 53 := by
      have : (d : Int) < 2 ^ 53 := by rw [← hd]; omega
      exact_mod_cast this
    have hsne : (s : ℚ) ≠ 0 := by
      have : (s : Int) ≠ 0 := by rw [← hs]; omega
      exact_mod_cast this
    rw [hloss, hd, hs, Float64.ofInt_natCast d hd53, Float64.ofInt_natCast s hs53]
    simp only [Float64.div, hsne, if_false, Int.cast_natCast]
  · intro hr
    rw [hloss, hr, sub_zero, hx, Float64.div_self_fin x hx0.ne']
    simp only [Float64.mul, one_mul]
    have := Float64.round_natCast 100 (by norm_num)
    simpa using this
  · intro hr
    rw [hloss, hr, sub_self, Float64.ofInt_zero, hx, Float64.zero_div_fin x hx0.ne']
    simp only [Float64.mul, zero_mul, Float64.round_zero]

/-- Witness for C4: five packets sent, none received, the loss is exactly 100. -/
theorem Statistics_PacketLoss_witness :
    (0 < ({ sampleClient with PacketsSent := 5 }).PacketsSent)
      ∧ ({ sampleClient with PacketsSent := 5 }).PacketsRecv = 0
      ∧ ({ sampleClient with PacketsSent := 5 }).Statistics.PacketLoss = .fin 100 :=
  ⟨by decide, rfl,
    (Statistics_PacketLoss { sampleClient with PacketsSent := 5 } (by decide) (by decide)
      (by decide) (by decide)).2.2.1 rfl⟩

/-- C5 fails on the code: for a fresh session (nothing sent, nothing received) the
loss computed by `Statistics` is `0 / 0`, a NaN. -/
theorem Statistics_PacketLoss_fresh_nan (addr : String) (tracker id : Int) :
    (New addr tracker id).Statistics.PacketLoss = Float64.nan := by
  rw [Statistics_PacketLoss_eq]
  have hw : wrapInt64 ((New addr tracker id).PacketsSent - (New addr tracker id).PacketsRecv)
      = 0 := by
    simp [New, wrapInt64]
  have hs : (New addr tracker id).PacketsSent = 0 := rfl
  rw [hw, hs, Float64.ofInt_zero]
  simp [Float64.div, Float64.mul]

/-! ## C6, C7: minimum, maximum and average -/

theorem scanRtts_nil (init : Scan) : scanRtts [] init = init := rfl

theorem scanRtts_cons (r : Int) (l : List Int) (init : Scan) :
    scanRtts (r :: l) init = scanRtts l
      { min := if r < init.min then r else init.min
        max := if r > init.max then r else init.max
        total := wrapInt64 (init.total + r) } := rfl

theorem wrapInt64_idem (x : Int) : wrapInt64 (wrapInt64 x) = wrapInt64 x := by
  unfold wrapInt64; omega

theorem scanRtts_total (l : List Int) (init : Scan) (h : wrapInt64 init.total = init.total) :
    (scanRtts l init).total = wrapInt64 (init.total + l.sum) := by
  induction l generalizing init with
  | nil => simp [scanRtts_nil, h]
  | cons r l ih =>
    rw [scanRtts_cons, ih _ (wrapInt64_idem _)]
    simp only [List.sum_cons, wrapInt64_add_left, add_assoc]

theorem scanRtts_min (l : List Int) (init : Scan) :
    (scanRtts l init).min ≤ init.min ∧ (∀ r ∈ l, (scanRtts l init).min ≤ r)
      ∧ ((scanRtts l init).min = init.min ∨ (scanRtts l init).min ∈ l) := by
  induction l generalizing init with
  | nil => simp [scanRtts_nil]
  | cons r l ih =>
    rw [scanRtts_cons]
    generalize hi : ({ min := if r < init.min then r else init.min
                       max := if r > init.max then r else init.max
                       total := wrapInt64 (init.total + r) } : Scan) = init1
    have hm : init1.min ≤ init.min ∧ init1.min ≤ r
        ∧ (init1.min = init.min ∨ init1.min = r) := by
      rw [← hi]; simp only; split_ifs <;> omega
    obtain ⟨h1, h2, h3⟩ := ih init1
    refine ⟨by omega, ?_, ?_⟩
    · intro x hx
      rcases List.mem_cons.1 hx with rfl | hx
      · omega
      · exact h2 x hx
    · rcases h3 with h3 | h3
      · rcases hm.2.2 with h4 | h4
        · left; omega
        · right; rw [h3, h4]; exact List.mem_cons_self _ _
      · right; exact List.mem_cons_of_mem _ h3

theorem scanRtts_max (l : List Int) (init : Scan) :
    init.max ≤ (scanRtts l init).max ∧ (∀ r ∈ l, r ≤ (scanRtts l init).max)
      ∧ ((scanRtts l init).max = init.max ∨ (scanRtts l init).max ∈ l) := by
  induction l generalizing init with
  | nil => simp [scanRtts_nil]
  | cons r l ih =>
    rw [scanRtts_cons]
    generalize hi : ({ min := if r < init.min then r else init.min
                       max := if r > init.max then r else init.max
                       total := wrapInt64 (init.total + r) } : Scan) = init1
    have hm : init.max ≤ init1.max ∧ r ≤ init1.max
        ∧ (init1.max = init.max ∨ init1.max = r) := by
      rw [← hi]; simp only; split_ifs <;> omega
    obtain ⟨h1, h2, h3⟩ := ih init1
    refine ⟨by omega, ?_, ?_⟩
    · intro x hx
      rcases List.mem_cons.1 hx with rfl | hx
      · omega
      · exact h2 x hx
    · rcases h3 with h3 | h3
      · rcases hm.2.2 with h4 | h4
        · left; omega
        · right; rw [h3, h4]; exact List.mem_cons_self _ _
      · right; exact List.mem_cons_of_mem _ h3

/-- The fields of the snapshot for a non-empty sample sequence. -/
theorem Statistics_nonempty (p : PingClient) (h : p.rtts ≠ []) :
    p.Statistics.MinRtt ∈ p.rtts ∧ (∀ r ∈ p.rtts, p.Statistics.MinRtt ≤ r)
      ∧ p.Statistics.MaxRtt ∈ p.rtts ∧ (∀ r ∈ p.rtts, r ≤ p.Statistics.MaxRtt)
      ∧ p.Statistics.AvgRtt = (wrapInt64 p.rtts.sum).tdiv p.rtts.length
      ∧ p.Statistics.StdDevRtt = Float64.toInt64 (Float64.sqrt (Float64.ofInt
          ((sumSquares p.rtts ((wrapInt64 p.rtts.sum).tdiv p.rtts.length)).tdiv
            p.rtts.length))) := by
  have hlen : p.rtts.length > 0 := List.length_pos.2 h
  obtain ⟨r0, rest, hl⟩ := List.exists_cons_of_ne_nil h
  have hhead : p.rtts.headD 0 = r0 := by rw [hl]; rfl
  have hmin := scanRtts_min p.rtts { min := r0, max := r0, total := 0 }
  have hmax := scanRtts_max p.rtts { min := r0, max := r0, total := 0 }
  have htot := scanRtts_total p.rtts { min := r0, max := r0, total := 0 }
    (by norm_num [wrapInt64])
  simp only [zero_add] at htot hmin hmax
  have hr0 : r0 ∈ p.rtts := by rw [hl]; exact List.mem_cons_self _ _
  have eMin : p.Statistics.MinRtt = (scanRtts p.rtts { min := r0, max := r0, total := 0 }).min := by
    unfold PingClient.Statistics; simp only [hlen, if_true, hhead]
  have eMax : p.Statistics.MaxRtt = (scanRtts p.rtts { min := r0, max := r0, total := 0 }).max := by
    unfold PingClient.Statistics; simp only [hlen, if_true, hhead]
  have eAvg : p.Statistics.AvgRtt = (wrapInt64 p.rtts.sum).tdiv p.rtts.length := by
    unfold PingClient.Statistics; simp only [hlen, if_true, hhead, htot]
  have eStd : p.Statistics.StdDevRtt = Float64.toInt64 (Float64.sqrt (Float64.ofInt
      ((sumSquares p.rtts ((wrapInt64 p.rtts.sum).tdiv p.rtts.length)).tdiv
        p.rtts.length))) := by
    unfold PingClient.Statistics; simp only [hlen, if_true, hhead, htot]
  rw [eMin, eMax]
  refine ⟨?_, hmin.2.1, ?_, hmax.2.1, eAvg, eStd⟩
  · rcases hmin.2.2 with h1 | h1
    · rw [h1]; exact hr0
    · exact h1
  · rcases hmax.2.2 with h1 | h1
    · rw [h1]; exact hr0
    · exact h1

/-- The fields of the snapshot for an empty sample sequence. -/
theorem Statistics_empty (p : PingClient) (h : p.rtts = []) :
    p.Statistics.MinRtt = 0 ∧ p.Statistics.MaxRtt = 0 ∧ p.Statistics.AvgRtt = 0
      ∧ p.Statistics.StdDevRtt = 0 := by
  unfold PingClient.Statistics
  simp [h, scanRtts_nil]

theorem sum_bounds (l : List Int) (lo hi : Int) (h : ∀ r ∈ l, lo ≤ r ∧ r ≤ hi) :
    lo * l.length ≤ l.sum ∧ l.sum ≤ hi * l.length := by
  induction l with
  | nil => simp
  | cons r l ih =>
    have h1 := h r (List.mem_cons_self _ _)
    have h2 := ih (fun x hx => h x (List.mem_cons_of_mem _ hx))
    simp only [List.sum_cons, List.length_cons, Nat.cast_add, Nat.cast_one, mul_add, mul_one]
    omega

/-- Truncated division of a sum of `n` numbers between `lo` and `hi` by `n` stays between
`lo` and `hi`. -/
theorem tdiv_between (s lo hi n : Int) (hn : 0 < n) (h1 : lo * n ≤ s) (h2 : s ≤ hi * n) :
    lo ≤ s.tdiv n ∧ s.tdiv n ≤ hi := by
  rw [tdiv_pos_eq s n hn]
  split_ifs with hs
  · exact ⟨Int.le_ediv_of_mul_le hn h1, Int.ediv_le_of_le_mul hn h2⟩
  · have a1 : (-s) / n ≤ -lo := Int.ediv_le_of_le_mul hn (by rw [neg_mul]; omega)
    have a2 : -hi ≤ (-s) / n := Int.le_ediv_of_mul_le hn (by rw [neg_mul]; omega)
    omega

/-- A round-trip time of the largest `Duration` is reachable: a reply with the session
tracker whose time stamp lies more than 292 years back is accepted, and the recorded
round-trip time is `2 ^ 63 - 1`. -/
theorem processPacket_records_saturated_rtt :
    (processPacket (fun _ _ => .ok staleReply) sampleClient sampleTime samplePacket).map
        (fun r => r.p.rtts) = some [9223372036854775807] := by
  decide

/-- C6, as stated, fails: for two samples of the largest `Duration` (what `Time.Sub`
yields for a time stamp more than 292 years back, see
`processPacket_records_saturated_rtt`) the running total wraps around to `-2`, so the
average is `-1`, below the minimum. -/
theorem Statistics_avg_below_min :
    ({ sampleClient with
        rtts := [9223372036854775807, 9223372036854775807] }).Statistics.MinRtt
        = 9223372036854775807
      ∧ ({ sampleClient with
          rtts := [9223372036854775807, 9223372036854775807] }).Statistics.AvgRtt = -1
      ∧ ¬ (({ sampleClient with
              rtts := [9223372036854775807, 9223372036854775807] }).Statistics.MinRtt
            ≤ ({ sampleClient with
              rtts := [9223372036854775807, 9223372036854775807] }).Statistics.AvgRtt) := by
  decide

/-- C6, amended.  For every non-empty sequence of recorded samples whose sum is within
the signed 64-bit range, the snapshot satisfies `MinRtt ≤ AvgRtt ≤ MaxRtt`. -/
theorem Statistics_min_le_avg_le_max (p : PingClient) (h : p.rtts ≠ [])
    (hsum : -2 ^ 63 ≤ p.rtts.sum ∧ p.rtts.sum < 2 ^ 63) :
    p.Statistics.MinRtt ≤ p.Statistics.AvgRtt ∧ p.Statistics.AvgRtt ≤ p.Statistics.MaxRtt := by
  obtain ⟨_, hmin, _, hmax, havg, _⟩ := Statistics_nonempty p h
  rw [havg, wrapInt64_of_range _ hsum.1 hsum.2]
  have hb := sum_bounds p.rtts p.Statistics.MinRtt p.Statistics.MaxRtt
    (fun r hr => ⟨hmin r hr, hmax r hr⟩)
  have hlen : (0 : Int) < p.rtts.length := by
    exact_mod_cast List.length_pos.2 h
  exact tdiv_between _ _ _ _ hlen hb.1 hb.2

/-- Witness for C6 amended: three samples, one of them negative. -/
theorem Statistics_min_le_avg_le_max_witness :
    ({ sampleClient with rtts := [1000000, -2, 5000001] }).rtts ≠ []
      ∧ ({ sampleClient with rtts := [1000000, -2, 5000001] }).Statistics.MinRtt
          ≤ ({ sampleClient with rtts := [1000000, -2, 5000001] }).Statistics.AvgRtt
      ∧ ({ sampleClient with rtts := [1000000, -2, 5000001] }).Statistics.AvgRtt
          ≤ ({ sampleClient with rtts := [1000000, -2, 5000001] }).Statistics.MaxRtt :=
  ⟨by decide,
    Statistics_min_le_avg_le_max { sampleClient with rtts := [1000000, -2, 5000001] }
      (by decide) (by decide)⟩

/-- C7, as stated, fails: for two samples of `2 ^ 62` nanoseconds the sum of the
samples divided by their count is `2 ^ 62`, but the total kept in a `Duration` wraps
around and `AvgRtt` is `-2 ^ 62`. -/
theorem Statistics_avg_ne_sum_div_count :
    ({ sampleClient with
        rtts := [4611686018427387904, 4611686018427387904] }).Statistics.AvgRtt
        = -4611686018427387904
      ∧ Int.tdiv ([4611686018427387904, 4611686018427387904] : List Int).sum
          ([4611686018427387904, 4611686018427387904] : List Int).length
        = 4611686018427387904 := by
  decide

/-- C7, amended.  For every non-empty sequence of recorded samples `MinRtt` is the
smallest sample, `MaxRtt` the largest, and `AvgRtt` is the sum of the samples, reduced
to the signed 64-bit range, divided by their count with truncation toward zero: the
sum of the samples divided by their count whenever that sum is within the signed
64-bit range.  For the empty sequence `MinRtt`, `MaxRtt`, `AvgRtt` and `StdDevRtt` are
zero. -/
theorem Statistics_min_max_avg (p : PingClient) :
    (p.rtts ≠ [] →
        p.Statistics.MinRtt ∈ p.rtts ∧ (∀ r ∈ p.rtts, p.Statistics.MinRtt ≤ r)
          ∧ p.Statistics.MaxRtt ∈ p.rtts ∧ (∀ r ∈ p.rtts, r ≤ p.Statistics.MaxRtt)
          ∧ p.Statistics.AvgRtt = (wrapInt64 p.rtts.sum).tdiv p.rtts.length
          ∧ (-2 ^ 63 ≤ p.rtts.sum ∧ p.rtts.sum < 2 ^ 63 →
              p.Statistics.AvgRtt = p.rtts.sum.tdiv p.rtts.length))
      ∧ (p.rtts = [] →
          p.Statistics.MinRtt = 0 ∧ p.Statistics.MaxRtt = 0 ∧ p.Statistics.AvgRtt = 0
            ∧ p.Statistics.StdDevRtt = 0) := by
  refine ⟨fun h => ?_, Statistics_empty p⟩
  obtain ⟨h1, h2, h3, h4, h5, _⟩ := Statistics_nonempty p h
  refine ⟨h1, h2, h3, h4, h5, fun hs => ?_⟩
  rw [h5, wrapInt64_of_range _ hs.1 hs.2]

/-- Witness for C7 amended: the three samples 3 ms, 1 ms and 5.000001 ms. -/
theorem Statistics_min_max_avg_witness :
    ({ sampleClient with rtts := [3000000, 1000000, 5000001] }).rtts ≠ []
      ∧ ({ sampleClient with rtts := [3000000, 1000000, 5000001] }).Statistics.MinRtt
          ∈ ({ sampleClient with rtts := [3000000, 1000000, 5000001] }).rtts
      ∧ ({ sampleClient with rtts := [3000000, 1000000, 5000001] }).Statistics.AvgRtt
          = (wrapInt64
              ({ sampleClient with rtts := [3000000, 1000000, 5000001] }).rtts.sum).tdiv
            ({ sampleClient with rtts := [3000000, 1000000, 5000001] }).rtts.length :=
  have h := (Statistics_min_max_avg
    { sampleClient with rtts := [3000000, 1000000, 5000001] }).1 (by decide)
  ⟨by decide, h.1, h.2.2.2.2.1⟩

/-! ## C8: the standard deviation -/

/-- For a natural number below `2 ^ 52`, the `float64` square root, with the fraction
discarded, is the integer square root. -/
theorem Float64.toInt64_sqrt_natCast (n : Nat) (hn : n < 2 ^ 52) :
    Float64.toInt64 (Float64.sqrt (.fin (n : ℚ))) = (Nat.sqrt n : Int) := by
  rcases Nat.eq_zero_or_pos n with h0 | hpos
  · subst h0; simp [Float64.sqrt, Float64.toInt64]
  have hq : (0 : ℚ) < n := by exact_mod_cast hpos
  have hL : Nat.log 2 n < 52 := Nat.log_lt_of_lt_pow hpos.ne' hn
  obtain ⟨E, hE⟩ : ∃ E : Nat, E = Nat.log 2 n / 2 := ⟨_, rfl⟩
  have hE25 : E ≤ 25 := by omega
  have he : Int.log 2 (n : ℚ) / 2 = (E : Int) := by rw [Int.log_natCast]; omega
  obtain ⟨U, hU⟩ : ∃ U : Nat, U = 2 ^ (52 - E) := ⟨_, rfl⟩
  have hU27 : 2 ^ 27 ≤ U := by
    rw [hU]; exact Nat.pow_le_pow_right (by norm_num) (by omega)
  have hUpos : (0 : ℚ) < U := by
    have : 0 < U := lt_of_lt_of_le (by norm_num) hU27
    exact_mod_cast this
  have hulp : (2 : ℚ) ^ ((E : Int) - 52) = 1 / (U : ℚ) := by
    have h1 : ((E : Int) - 52) = -((52 - E : Nat) : Int) := by omega
    rw [h1, zpow_neg, zpow_natCast, hU]
    push_cast
    rw [one_div]
  have hy : (n : ℚ) / (1 / (U : ℚ) * (1 / (U : ℚ))) = ((n * U * U : Nat) : ℚ) := by
    push_cast
    field_simp
    ring
  -- the integer square roots
  obtain ⟨s, hs⟩ : ∃ s : Nat, s = Nat.sqrt n := ⟨_, rfl⟩
  obtain ⟨m, hm⟩ : ∃ m : Nat, m = Nat.sqrt (n * U * U) := ⟨_, rfl⟩
  have hs1 : s * s ≤ n := by rw [hs]; exact Nat.sqrt_le n
  have hs2 : n < (s + 1) * (s + 1) := by rw [hs]; exact Nat.lt_succ_sqrt n
  have hs26 : s + 1 ≤ 2 ^ 26 := by
    by_contra hc
    have h1 : 2 ^ 26 ≤ s := by omega
    have : 2 ^ 26 * 2 ^ 26 ≤ s * s := Nat.mul_le_mul h1 h1
    norm_num at this hn
    omega
  have hm1 : m * m ≤ n * U * U := by rw [hm]; exact Nat.sqrt_le _
  have hm2 : n * U * U < (m + 1) * (m + 1) := by rw [hm]; exact Nat.lt_succ_sqrt _
  have hlo : s * U ≤ m := by
    rw [hm, Nat.le_sqrt]
    calc s * U * (s * U) = (s * s) * U * U := by ring
      _ ≤ n * U * U := Nat.mul_le_mul_right _ (Nat.mul_le_mul_right _ hs1)
  have hhi : m < (s + 1) * U := by
    rw [hm, Nat.sqrt_lt]
    have hU0 : 0 < U := lt_of_lt_of_le (by norm_num) hU27
    calc n * U * U < ((s + 1) * (s + 1)) * U * U := by
          apply Nat.mul_lt_mul_of_pos_right _ hU0
          exact Nat.mul_lt_mul_of_pos_right hs2 hU0
      _ = (s + 1) * U * ((s + 1) * U) := by ring
  -- the rounded root, in units of `ulp`
  have key : ∀ m1 : Int, (m1 = m ∨ (m1 = m + 1 ∧
      (((m : Int) : ℚ) + 1 / 2) * (((m : Int) : ℚ) + 1 / 2) ≤ ((n * U * U : Nat) : ℚ))) →
      Float64.toInt64 (.fin ((m1 : ℚ) * (1 / (U : ℚ)))) = (s : Int) := by
    intro m1 hm1c
    have hb : (s : Int) * U ≤ m1 ∧ m1 < ((s : Int) + 1) * U := by
      rcases hm1c with h | ⟨h, hhalf⟩
      · rw [h]; constructor
        · exact_mod_cast hlo
        · exact_mod_cast hhi
      · rw [h]; constructor
        · have : (s : Int) * U ≤ m := by exact_mod_cast hlo
          omega
        · by_contra hc
          have h1 : ((s : Int) + 1) * U ≤ m + 1 := by omega
          have h2 : (m : Int) + 1 ≤ ((s : Int) + 1) * U := by
            have : (m : Int) < ((s : Int) + 1) * U := by exact_mod_cast hhi
            omega
          have h3 : (m : Int) = ((s : Int) + 1) * U - 1 := by omega
          have h4 : (n : Int) + 1 ≤ ((s : Int) + 1) * ((s : Int) + 1) := by exact_mod_cast hs2
          have h5 : (4 : Int) * (m * m + m) + 1 ≤ 4 * (n * U * U) := by
            have e1 : (((m : Int) : ℚ) + 1 / 2) * (((m : Int) : ℚ) + 1 / 2)
                = (m : ℚ) * m + m + 1 / 4 := by push_cast; ring
            have : (4 : ℚ) * ((m : ℚ) * m + m) + 1 ≤ 4 * ((n : ℚ) * U * U) := by
              rw [e1] at hhalf
              push_cast at hhalf
              linarith
            exact_mod_cast this
          have hU' : (2 : Int) ^ 27 ≤ U := by exact_mod_cast hU27
          have hs' : (s : Int) + 1 ≤ 2 ^ 26 := by exact_mod_cast hs26
          have hU0 : (0 : Int) ≤ U := Int.natCast_nonneg _
          have hUU : (0 : Int) ≤ (U : Int) * U := mul_nonneg hU0 hU0
          have h6 : ((n : Int) + 1) * ((U : Int) * U)
              ≤ (((s : Int) + 1) * ((s : Int) + 1)) * ((U : Int) * U) :=
            mul_le_mul_of_nonneg_right h4 hUU
          have h7 : ((s : Int) + 1) * U ≤ 2 ^ 26 * (U : Int) :=
            mul_le_mul_of_nonneg_right hs' hU0
          have h8 : (2 : Int) ^ 27 * U ≤ (U : Int) * U :=
            mul_le_mul_of_nonneg_right hU' hU0
          have e2 : (4 : Int) * (m * m + m) + 1
              = 4 * ((((s : Int) + 1) * ((s : Int) + 1)) * ((U : Int) * U))
                - 4 * (((s : Int) + 1) * U) + 1 := by
            rw [h3]; ring
          have e3 : ((n : Int) + 1) * ((U : Int) * U) = (n : Int) * U * U + (U : Int) * U := by
            ring
          rw [e2] at h5
          rw [e3] at h6
          norm_num at h7 h8
          linarith
    have hfloor : ⌊(m1 : ℚ) * (1 / (U : ℚ))⌋ = (s : Int) := by
      rw [Int.floor_eq_iff, mul_one_div, le_div_iff₀ hUpos, div_lt_iff₀ hUpos]
      constructor
      · exact_mod_cast hb.1
      · exact_mod_cast hb.2
    have hnn : (0 : ℚ) ≤ (m1 : ℚ) * (1 / (U : ℚ)) := by
      have : (0 : Int) ≤ m1 := by
        have : (0 : Int) ≤ (s : Int) * U := by positivity
        omega
      have : (0 : ℚ) ≤ (m1 : ℚ) := by exact_mod_cast this
      positivity
    have hr : (s : Int) < 2 ^ 63 := by
      have : (s : Int) + 1 ≤ 2 ^ 26 := by exact_mod_cast hs26
      omega
    simp only [Float64.toInt64, hnn, if_true, hfloor]
    rw [if_pos ⟨by omega, hr⟩]
  simp only [Float64.sqrt, not_lt.2 hq.le, hq.ne', if_false, he, hulp, hy, Nat.floor_natCast,
    ← hm, ← hs]
  split_ifs with c1 c2 c3
  · exact key _ (Or.inl rfl)
  · exact key _ (Or.inr ⟨rfl, by push_cast at c2 ⊢; exact c2.le⟩)
  · exact key _ (Or.inl rfl)
  · exact key _ (Or.inr ⟨rfl, by push_cast at c1 ⊢; exact not_lt.1 c1⟩)

theorem int64_of_sq_lt (x : Int) (h : x * x < 2 ^ 63) : -2 ^ 63 ≤ x ∧ x < 2 ^ 63 := by
  constructor
  · by_contra hc
    have h1 : x ≤ -2 ^ 63 := by omega
    nlinarith
  · by_contra hc
    have h1 : (2 : Int) ^ 63 ≤ x := by omega
    nlinarith

theorem devSum_nonneg (l : List Int) (a : Int) :
    0 ≤ (l.map fun r => (r - a) * (r - a)).sum := by
  induction l with
  | nil => simp
  | cons r l ih =>
    simp only [List.map_cons, List.sum_cons]
    have := mul_self_nonneg (r - a)
    omega

/-- When the exact sum of the squared deviations stays below `2 ^ 63`, the second loop
of `Statistics` computes it without wrap-around. -/
theorem sumSquares_exact_from (l : List Int) (a acc : Int) (hacc : 0 ≤ acc)
    (h : acc + (l.map fun r => (r - a) * (r - a)).sum < 2 ^ 63) :
    l.foldl
        (fun sumsquares rtt =>
          wrapInt64 (sumsquares + wrapInt64 (wrapInt64 (rtt - a) * wrapInt64 (rtt - a))))
        acc
      = acc + (l.map fun r => (r - a) * (r - a)).sum := by
  induction l generalizing acc with
  | nil => simp
  | cons r l ih =>
    simp only [List.map_cons, List.sum_cons, List.foldl_cons] at h ⊢
    have hrest := devSum_nonneg l a
    have hsq := mul_self_nonneg (r - a)
    have hd := int64_of_sq_lt (r - a) (by omega)
    have e1 : wrapInt64 (r - a) = r - a := wrapInt64_of_range _ hd.1 hd.2
    have e2 : wrapInt64 ((r - a) * (r - a)) = (r - a) * (r - a) :=
      wrapInt64_of_range _ (by omega) (by omega)
    have e3 : wrapInt64 (acc + (r - a) * (r - a)) = acc + (r - a) * (r - a) :=
      wrapInt64_of_range _ (by omega) (by omega)
    rw [e1, e2, e3, ih _ (by omega) (by omega)]
    ring

theorem sumSquares_exact (l : List Int) (a : Int)
    (h : (l.map fun r => (r - a) * (r - a)).sum < 2 ^ 63) :
    sumSquares l a = (l.map fun r => (r - a) * (r - a)).sum := by
  unfold sumSquares
  rw [sumSquares_exact_from l a 0 le_rfl (by omega), zero_add]

/-- Where `StdDevRtt` is exact: for every non-empty sequence of recorded samples whose
sum of squared deviations from `AvgRtt` is below `2 ^ 63` (no wrap-around in the
`Duration` arithmetic) and below `2 ^ 52` times the number of samples, `StdDevRtt` is
the population standard deviation in whole nanoseconds: the largest `s` with `s ^ 2` at
most the sum of the squared deviations divided by the number of samples. -/
theorem Statistics_StdDevRtt (p : PingClient) (h : p.rtts ≠ [])
    (hD : (p.rtts.map fun r =>
      (r - p.Statistics.AvgRtt) * (r - p.Statistics.AvgRtt)).sum < 2 ^ 63)
    (hq : (p.rtts.map fun r =>
      (r - p.Statistics.AvgRtt) * (r - p.Statistics.AvgRtt)).sum < 2 ^ 52 * p.rtts.length) :
    0 ≤ p.Statistics.StdDevRtt
      ∧ p.Statistics.StdDevRtt * p.Statistics.StdDevRtt * p.rtts.length
          ≤ (p.rtts.map fun r =>
              (r - p.Statistics.AvgRtt) * (r - p.Statistics.AvgRtt)).sum
      ∧ (p.rtts.map fun r =>
              (r - p.Statistics.AvgRtt) * (r - p.Statistics.AvgRtt)).sum
          < (p.Statistics.StdDevRtt + 1) * (p.Statistics.StdDevRtt + 1) * p.rtts.length := by
  obtain ⟨_, _, _, _, havg, hstd⟩ := Statistics_nonempty p h
  rw [← havg] at hstd
  generalize p.Statistics.AvgRtt = a at hD hq hstd ⊢
  have hlen : 0 < p.rtts.length := List.length_pos.2 h
  have hD0 := devSum_nonneg p.rtts a
  rw [sumSquares_exact _ _ hD] at hstd
  generalize (p.rtts.map fun r => (r - a) * (r - a)).sum = D at hD hq hstd hD0 ⊢
  generalize p.rtts.length = N at hq hstd hlen ⊢
  obtain ⟨d, rfl⟩ := Int.eq_ofNat_of_zero_le hD0
  have hdiv : (d : Int).tdiv (N : Int) = ((d / N : Nat) : Int) := by
    rw [Int.tdiv_eq_ediv (Int.natCast_nonneg _) (Int.natCast_nonneg _)]
    exact (Int.natCast_div d N).symm
  have hq' : d < 2 ^ 52 * N := by exact_mod_cast hq
  have hk : d / N < 2 ^ 52 := (Nat.div_lt_iff_lt_mul hlen).2 hq'
  rw [hdiv, Float64.ofInt_natCast _ (lt_trans hk (by norm_num)),
    Float64.toInt64_sqrt_natCast _ hk] at hstd
  rw [hstd]
  have h1 : Nat.sqrt (d / N) * Nat.sqrt (d / N) ≤ d / N := Nat.sqrt_le _
  have h2 : d / N < (Nat.sqrt (d / N) + 1) * (Nat.sqrt (d / N) + 1) := Nat.lt_succ_sqrt _
  refine ⟨Int.natCast_nonneg _, ?_, ?_⟩
  · have := (Nat.le_div_iff_mul_le hlen).1 h1
    exact_mod_cast this
  · have := (Nat.div_lt_iff_lt_mul hlen).1 h2
    exact_mod_cast this

/-- The `float64` square root of `4503625262993024 = 67109055 ^ 2 - 1` is rounded up to
`67109055`. -/
theorem Float64.sqrt_rounds_up :
    Float64.sqrt (.fin 4503625262993024) = .fin 67109055 := by
  have hlog : Int.log 2 (4503625262993024 : ℚ) = 52 := by
    have h := Int.log_natCast (R := ℚ) 2 4503625262993024
    have h2 : Nat.log 2 4503625262993024 = 52 :=
      Nat.log_eq_of_pow_le_of_lt_pow (by norm_num) (by norm_num)
    rw [h2] at h
    exact_mod_cast h
  have hy : (4503625262993024 : ℚ) / ((2 : ℚ) ^ ((26 : Int) - 52) * (2 : ℚ) ^ ((26 : Int) - 52))
      = ((20282525056231734935439911419904 : Nat) : ℚ) := by
    norm_num
  have hsq : Nat.sqrt 20282525056231734935439911419904 = 4503612445163519 := by
    norm_num
  have he : (52 : Int) / 2 = 26 := by norm_num
  simp only [Float64.sqrt, hlog, he, hy, Nat.floor_natCast, hsq]
  norm_num

/-- The rounding of `math.Sqrt`: for the samples 100.147256 ms, 182.117744 ms and
17.735 ms the average is 100 ms, the squared deviations sum to `13510875788979072` (no wrap-around)
and their mean is `67109055 ^ 2 - 1`; `math.Sqrt` rounds its root up to `67109055`, so
`StdDevRtt` is `67109055`, whose square exceeds the mean: the largest `s` with `s ^ 2`
at most the mean is `67109054`. -/
theorem Statistics_StdDevRtt_rounded_up :
    roundingSamples.Statistics.AvgRtt = 100000000
      ∧ (roundingSamples.rtts.map fun r =>
          (r - roundingSamples.Statistics.AvgRtt)
            * (r - roundingSamples.Statistics.AvgRtt)).sum = 13510875788979072
      ∧ roundingSamples.Statistics.StdDevRtt = 67109055
      ∧ ¬ (roundingSamples.Statistics.StdDevRtt * roundingSamples.Statistics.StdDevRtt
            * roundingSamples.rtts.length
          ≤ (roundingSamples.rtts.map fun r =>
              (r - roundingSamples.Statistics.AvgRtt)
                * (r - roundingSamples.Statistics.AvgRtt)).sum)
      ∧ (67109054 * 67109054 * 3 ≤ (13510875788979072 : Int)
          ∧ (13510875788979072 : Int) < 67109055 * 67109055 * 3) := by
  have havg : roundingSamples.Statistics.AvgRtt = 100000000 := by decide
  have hstd : roundingSamples.Statistics.StdDevRtt = 67109055 := by
    obtain ⟨_, _, _, _, _, h⟩ := Statistics_nonempty roundingSamples (by decide)
    have hq : (sumSquares roundingSamples.rtts
        ((wrapInt64 roundingSamples.rtts.sum).tdiv roundingSamples.rtts.length)).tdiv
          roundingSamples.rtts.length = ((4503625262993024 : Nat) : Int) := by decide
    rw [hq, Float64.ofInt_natCast _ (by norm_num)] at h
    rw [h]
    have h2 := Float64.sqrt_rounds_up
    norm_num at h2 ⊢
    rw [h2]
    norm_num [Float64.toInt64]
  refine ⟨havg, ?_, hstd, ?_, by norm_num, by norm_num⟩
  · rw [havg]; decide
  · rw [havg, hstd]; decide

/-- An instance of `Statistics_StdDevRtt`: the samples 1 ms, 3 ms and 5.000001 ms. -/
theorem Statistics_StdDevRtt_witness :
    smallSamples.rtts ≠ []
      ∧ (smallSamples.rtts.map fun r =>
          (r - smallSamples.Statistics.AvgRtt) * (r - smallSamples.Statistics.AvgRtt)).sum
        = 8000004000001
      ∧ 0 ≤ smallSamples.Statistics.StdDevRtt
      ∧ smallSamples.Statistics.StdDevRtt * smallSamples.Statistics.StdDevRtt
          * (smallSamples.rtts.length : Int)
        ≤ (smallSamples.rtts.map fun r =>
            (r - smallSamples.Statistics.AvgRtt) * (r - smallSamples.Statistics.AvgRtt)).sum
      ∧ (smallSamples.rtts.map fun r =>
            (r - smallSamples.Statistics.AvgRtt) * (r - smallSamples.Statistics.AvgRtt)).sum
        < (smallSamples.Statistics.StdDevRtt + 1) * (smallSamples.Statistics.StdDevRtt + 1)
          * (smallSamples.rtts.length : Int) :=
  have hsum : (smallSamples.rtts.map fun r =>
      (r - smallSamples.Statistics.AvgRtt) * (r - smallSamples.Statistics.AvgRtt)).sum
      = 8000004000001 := by decide
  have hlen : smallSamples.rtts.length = 3 := rfl
  ⟨by decide, hsum,
    Statistics_StdDevRtt smallSamples (by decide) (by rw [hsum]; norm_num)
      (by rw [hsum, hlen]; norm_num)⟩

/-- The wrap-around of the squared deviations: for the samples 1 ms and 8.590934592 s
both deviations from the average are `2 ^ 32` ns, each square is `2 ^ 64`, which is `0`
in a `Duration`, and `StdDevRtt` is `0`. -/
theorem Statistics_StdDevRtt_wraps :
    ({ sampleClient with rtts := [1000000, 8590934592] }).Statistics.AvgRtt = 4295967296
      ∧ sumSquares [1000000, 8590934592] 4295967296 = 0
      ∧ ({ sampleClient with rtts := [1000000, 8590934592] }).Statistics.StdDevRtt = 0 := by
  refine ⟨by decide, by decide, ?_⟩
  obtain ⟨_, _, _, _, _, h⟩ := Statistics_nonempty
    { sampleClient with rtts := [1000000, 8590934592] } (by decide)
  have hq : (sumSquares ({ sampleClient with rtts := [1000000, 8590934592] }).rtts
      ((wrapInt64 ({ sampleClient with rtts := [1000000, 8590934592] }).rtts.sum).tdiv
        ({ sampleClient with rtts := [1000000, 8590934592] }).rtts.length)).tdiv
      ({ sampleClient with rtts := [1000000, 8590934592] }).rtts.length = 0 := by decide
  rw [hq, Float64.ofInt_zero] at h
  rw [h]
  simp [Float64.sqrt, Float64.toInt64]

/-- The conversion of a negative `int64` is a negative finite number. -/
theorem Float64.ofInt_neg (n : Int) (h1 : n < 0) (h2 : -2 ^ 63 ≤ n) :
    ∃ x : ℚ, x < 0 ∧ Float64.ofInt n = .fin x := by
  obtain ⟨m, hm0⟩ := Int.eq_ofNat_of_zero_le (show 0 ≤ -n by omega)
  have hn : n = -(m : Int) := by omega
  subst hn
  have hpos : 0 < m := by omega
  have hm : m < 2 ^ 64 := by
    have : (m : Int) < 2 ^ 64 := by omega
    exact_mod_cast this
  have hL : Nat.log 2 m < 64 := Nat.log_lt_of_lt_pow hpos.ne' hm
  have hq : (0 : ℚ) < m := by exact_mod_cast hpos
  have hmax : max (Nat.log 2 m : Int) (-1022) = Nat.log 2 m := by omega
  set ulp : ℚ := 2 ^ ((Nat.log 2 m : Int) - 52) with hulp
  have hulp0 : 0 < ulp := by positivity
  have hulp1 : ulp ≤ 2 ^ (11 : Int) := by
    rw [hulp]
    exact zpow_le_zpow_right₀ (by norm_num) (by omega)
  have hge : (1 : ℚ) ≤ m / ulp := by
    rw [le_div_iff₀ hulp0, one_mul]
    have h52 : ulp ≤ 2 ^ (Nat.log 2 m : Int) := by
      rw [hulp]
      exact zpow_le_zpow_right₀ (by norm_num) (by omega)
    have : (2 : ℚ) ^ (Nat.log 2 m : Int) ≤ m := by
      rw [zpow_natCast]
      exact_mod_cast Nat.pow_log_le_self 2 hpos.ne'
    linarith
  obtain ⟨hb1, hb2⟩ := roundEven_bounds (m / ulp)
  have hfl : 1 ≤ ⌊(m : ℚ) / ulp⌋ := Int.le_floor.2 (by exact_mod_cast hge)
  have hre : (1 : ℚ) ≤ roundEven (m / ulp) := by exact_mod_cast le_trans hfl hb1
  have hre2 : (roundEven (m / ulp) : ℚ) ≤ m / ulp + 1 := by
    have : ((⌊(m : ℚ) / ulp⌋ : Int) : ℚ) ≤ m / ulp := Int.floor_le _
    have h3 : (roundEven (m / ulp) : ℚ) ≤ (⌊(m : ℚ) / ulp⌋ : ℚ) + 1 := by exact_mod_cast hb2
    linarith
  have hrpos : (0 : ℚ) < roundEven (m / ulp) * ulp := by positivity
  refine ⟨-(roundEven (m / ulp) * ulp), by linarith, ?_⟩
  have hlt : ¬ (2 : ℚ) ^ 1024 ≤ roundEven (m / ulp) * ulp := by
    rw [not_le]
    have h4 : (roundEven (m / ulp) : ℚ) * ulp ≤ m + ulp := by
      calc (roundEven (m / ulp) : ℚ) * ulp ≤ (m / ulp + 1) * ulp :=
            mul_le_mul_of_nonneg_right hre2 hulp0.le
        _ = m + ulp := by field_simp
    have h5 : (m : ℚ) < 2 ^ 64 := by exact_mod_cast hm
    have h6 : (2 : ℚ) ^ (11 : Int) = 2048 := by norm_num
    have h7 : (2 : ℚ) ^ 64 + 2048 < 2 ^ 1024 := by norm_num
    linarith
  have hneg : ((-(m : Int) : Int) : ℚ) = -(m : ℚ) := by push_cast; rfl
  have hne : -(m : ℚ) ≠ 0 := by linarith
  have hlt0 : -(m : ℚ) < 0 := by linarith
  simp only [Float64.ofInt, hneg, Float64.round, hne, if_false, abs_neg, abs_of_pos hq,
    Int.log_natCast, hmax, ← hulp, hlt, hlt0, if_true]

/-- C8 fails on the code: the squared deviations are summed in a `Duration`, which wraps
around at `2 ^ 63` ns².  For the samples 0 and 4.294967296 s the average is
2.147483648 s, each squared deviation is `2 ^ 62` and their sum wraps to `-2 ^ 63`, so
`math.Sqrt` gets a negative number, answers NaN, and `StdDevRtt` is the converted NaN
(`-2 ^ 63` here); the same for the samples 1 ms and 4.3 s.  For 1 ms and 8.590934592 s
each square is `2 ^ 64`, which is 0 in a `Duration`, and `StdDevRtt` is 0.  The
population standard deviations are 2147483648 ns, 2149500000 ns and 4294967296 ns. -/
theorem Statistics_StdDevRtt_overflow :
    ({ sampleClient with rtts := [0, 4294967296] }).Statistics.AvgRtt = 2147483648
      ∧ sumSquares [0, 4294967296] 2147483648 = -9223372036854775808
      ∧ ({ sampleClient with rtts := [0, 4294967296] }).Statistics.StdDevRtt
          = -9223372036854775808
      ∧ ((0 - 2147483648) * (0 - 2147483648)
            + (4294967296 - 2147483648) * (4294967296 - 2147483648) : Int)
          = 2147483648 * 2147483648 * 2
      ∧ ({ sampleClient with rtts := [1000000, 4300000000] }).Statistics.AvgRtt = 2150500000
      ∧ ({ sampleClient with rtts := [1000000, 4300000000] }).Statistics.StdDevRtt
          = -9223372036854775808
      ∧ ((1000000 - 2150500000) * (1000000 - 2150500000)
            + (4300000000 - 2150500000) * (4300000000 - 2150500000) : Int)
          = 2149500000 * 2149500000 * 2
      ∧ ({ sampleClient with rtts := [1000000, 8590934592] }).Statistics.AvgRtt = 4295967296
      ∧ ({ sampleClient with rtts := [1000000, 8590934592] }).Statistics.StdDevRtt = 0
      ∧ ((1000000 - 4295967296) * (1000000 - 4295967296)
            + (8590934592 - 4295967296) * (8590934592 - 4295967296) : Int)
          = 4294967296 * 4294967296 * 2 := by
  have nanCase : ∀ (p : PingClient) (q : Int), p.rtts ≠ [] →
      (sumSquares p.rtts ((wrapInt64 p.rtts.sum).tdiv p.rtts.length)).tdiv p.rtts.length = q →
      q < 0 → -2 ^ 63 ≤ q → p.Statistics.StdDevRtt = -9223372036854775808 := by
    intro p q hne hq hq0 hq1
    obtain ⟨_, _, _, _, _, h⟩ := Statistics_nonempty p hne
    obtain ⟨x, hx, hof⟩ := Float64.ofInt_neg q hq0 hq1
    rw [h, hq, hof]
    simp [Float64.sqrt, Float64.toInt64, hx]
  refine ⟨by decide, by decide, ?_, by norm_num, by decide, ?_, by norm_num, by decide, ?_,
    by norm_num⟩
  · exact nanCase { sampleClient with rtts := [0, 4294967296] } (-4611686018427387904)
      (by decide) (by decide) (by norm_num) (by norm_num)
  · exact nanCase { sampleClient with rtts := [1000000, 4300000000] } (-4603021786854775808)
      (by decide) (by decide) (by norm_num) (by norm_num)
  · exact Statistics_StdDevRtt_wraps.2.2

/-! ## C9: the stop signal -/

/-- C9 fails on the code: `Stop` closes the channel `done` unconditionally, so from
every session a second `Stop` in a row ends in the run-time panic of closing a closed
channel; on a fresh session the first `Stop` succeeds and the second one panics. -/
theorem Stop_twice_panics (addr : String) (tracker id : Int) (p : PingClient) :
    (Stop p >>= Stop) = .error "panic: close of closed channel"
      ∧ Stop (New addr tracker id) = .ok { New addr tracker id with doneClosed := true }
      ∧ Stop { New addr tracker id with doneClosed := true }
          = .error "panic: close of closed channel" := by
  refine ⟨?_, rfl, rfl⟩
  cases h : p.doneClosed <;> simp [Stop, closeDone, h, bind, Except.bind]

/-! ## C10: write failures in `sendICMP` -/

/-- C10 fails on the code: when `conn.WriteTo` fails with a `*net.OpError` other than
`ENOBUFS`, or with an error of another type, the write loop calls `OnSend`, counts the
packet as sent, advances the sequence number and reports no error, and `sendICMP` on a
resolved session returns nil. -/
theorem sendICMP_write_error_returns_nil (p : PingClient) (msgBytes : List Byte)
    (code : Nat) (msg : String) (ws : List WriteResult) :
    sendLoop p msgBytes (.opError (.other code) :: ws)
        = some ⟨{ p with PacketsSent := p.PacketsSent + 1, sequence := p.sequence + 1 }, none,
            if p.OnSend then
              [{ Rtt := 0, IPAddr := p.ipaddr, Addr := p.addr, Nbytes := msgBytes.length,
                 Seq := p.sequence, Ttl := 0 }]
            else [], 1⟩
      ∧ sendLoop p msgBytes (.otherError msg :: ws)
        = some ⟨{ p with PacketsSent := p.PacketsSent + 1, sequence := p.sequence + 1 }, none,
            if p.OnSend then
              [{ Rtt := 0, IPAddr := p.ipaddr, Addr := p.addr, Nbytes := msgBytes.length,
                 Seq := p.sequence, Ttl := 0 }]
            else [], 1⟩
      ∧ sendICMP (fun _ => .ok msgBytes) resolvedClient sampleTime
          (.opError (.other code) :: ws)
        = some ⟨{ resolvedClient with PacketsSent := 1, sequence := 1 }, none, [], 1⟩
      ∧ sendICMP (fun _ => .ok msgBytes) resolvedClient sampleTime (.otherError msg :: ws)
        = some ⟨{ resolvedClient with PacketsSent := 1, sequence := 1 }, none, [], 1⟩ :=
  ⟨rfl, rfl, rfl, rfl⟩


/-! ## C11, C12: the send path and the cap of `Run` -/

theorem sendICMP_eq (Marshal : Message → Except String (List Byte)) (p : PingClient)
    (now : Time) (writes : List WriteResult) :
    sendICMP Marshal p now writes =
      if p.protocol = "udp" ∧ p.ipaddr = none then none
      else
        match echoRequest p now with
        | none => none
        | some msg =>
          match Marshal msg with
          | .error e => some ⟨p, some e, [], 0⟩
          | .ok msgBytes => sendLoop p msgBytes writes := by
  unfold sendICMP echoRequest
  by_cases h : p.protocol = "udp" ∧ p.ipaddr = none
  · simp only [if_pos h]
  · simp only [if_neg h]
    cases echoData p now <;> rfl

/-- After `k` failures with `ENOBUFS` a successful write completes the loop, at the
`k + 1`-th call of `conn.WriteTo`. -/
theorem sendLoop_retries (p : PingClient) (msgBytes : List Byte) (k : Nat) (n : Int)
    (rest : List WriteResult) :
    sendLoop p msgBytes (List.replicate k (.opError .ENOBUFS) ++ .ok n :: rest)
      = some (sentOnce p msgBytes (k + 1)) := by
  induction k with
  | zero => rfl
  | succ k ih =>
    rw [List.replicate_succ, List.cons_append]
    show (sendLoop p msgBytes _).map _ = _
    rw [ih]
    rfl

/-- The write loop, when it ends, always ends the same way. -/
theorem sendLoop_some (p : PingClient) (msgBytes : List Byte) (ws : List WriteResult)
    (r : SendResult) (h : sendLoop p msgBytes ws = some r) :
    ∃ w, r = sentOnce p msgBytes w := by
  induction ws generalizing r with
  | nil => simp [sendLoop] at h
  | cons w ws ih =>
    cases w with
    | ok n => exact ⟨1, (Option.some.inj h).symm⟩
    | otherError m => exact ⟨1, (Option.some.inj h).symm⟩
    | opError e =>
      cases e with
      | ENOBUFS =>
        have h' : (sendLoop p msgBytes ws).map (fun r => { r with writes := r.writes + 1 })
            = some r := h
        cases hs : sendLoop p msgBytes ws with
        | none => rw [hs] at h'; simp at h'
        | some r0 =>
          rw [hs] at h'
          obtain ⟨w0, hw0⟩ := ih r0 hs
          refine ⟨w0 + 1, ?_⟩
          rw [← Option.some.inj h', hw0]
          rfl
      | other c => exact ⟨1, (Option.some.inj h).symm⟩

/-- A call of `sendICMP` that returns either fails in `Marshal` and changes nothing,
or completes the write loop. -/
theorem sendICMP_some (Marshal : Message → Except String (List Byte)) (p : PingClient)
    (now : Time) (ws : List WriteResult) (r : SendResult)
    (h : sendICMP Marshal p now ws = some r) :
    (r.p = p ∧ r.onSend = [] ∧ r.err ≠ none)
      ∨ ∃ msgBytes w, r = sentOnce p msgBytes w := by
  rw [sendICMP_eq] at h
  split_ifs at h
  cases hreq : echoRequest p now with
  | none => rw [hreq] at h; simp at h
  | some msg =>
    rw [hreq] at h
    simp only at h
    cases hM : Marshal msg with
    | error e =>
      rw [hM] at h
      simp only [Option.some.injEq] at h
      left
      subst h
      simp
    | ok b =>
      rw [hM] at h
      right
      obtain ⟨w, hw⟩ := sendLoop_some p b ws r h
      exact ⟨b, w, hw⟩

/-- `processPacket` touches neither the cap, nor the send counters, nor the `OnSend`
handler. -/
theorem processPacket_keeps (ParseMessage : Nat → List Byte → Except String Message)
    (p : PingClient) (receivedAt : Time) (recv : packet) (r : RecvResult)
    (h : processPacket ParseMessage p receivedAt recv = some r) :
    r.p.Count = p.Count ∧ r.p.PacketsSent = p.PacketsSent ∧ r.p.sequence = p.sequence
      ∧ r.p.OnSend = p.OnSend := by
  simp only [processPacket] at h
  cases hparse : ParseMessage (if p.ipv4 then protocolICMP else protocolIPv6ICMP) recv.bytes with
  | error e =>
    rw [hparse] at h
    simp only [Option.some.injEq] at h; subst h; simp
  | ok m =>
    rw [hparse] at h
    simp only at h
    by_cases h1 : m.Typ ≠ ipv4ICMPTypeEchoReply ∧ m.Typ ≠ ipv6ICMPTypeEchoReply
    · rw [if_pos h1] at h
      simp only [Option.some.injEq] at h; subst h; simp
    · rw [if_neg h1] at h
      cases hbody : m.Body with
      | other =>
        rw [hbody] at h
        simp only [Option.some.injEq] at h; subst h; simp
      | echo pkt =>
        rw [hbody] at h
        simp only at h
        by_cases h2 : p.protocol = "icmp" ∧ pkt.ID ≠ p.id
        · rw [if_pos h2] at h
          simp only [Option.some.injEq] at h; subst h; simp
        · rw [if_neg h2] at h
          by_cases h3 : pkt.Data.length < timeSliceLength + trackerLength
          · rw [if_pos h3] at h
            simp only [Option.some.injEq] at h; subst h; simp
          · rw [if_neg h3] at h
            cases htr : bytesToInt (pkt.Data.drop timeSliceLength) with
            | none => rw [htr] at h; simp at h
            | some tracker =>
              cases hts : bytesToTime (pkt.Data.take timeSliceLength) with
              | none => rw [htr, hts] at h; simp at h
              | some timestamp =>
                rw [htr, hts] at h
                simp only at h
                by_cases h4 : tracker ≠ p.Tracker
                · rw [if_pos h4] at h
                  simp only [Option.some.injEq] at h; subst h; simp
                · rw [if_neg h4] at h
                  simp only [Option.some.injEq] at h
                  subst h
                  simp only
                  split_ifs <;> simp

theorem closeDone_ok (p p1 : PingClient) (h : closeDone p = .ok p1) :
    p1 = { p with doneClosed := true } := by
  unfold closeDone at h
  split_ifs at h
  simp only [Except.ok.injEq] at h
  exact h.symm

theorem checkRecvCount_some (s s1 : RunState) (h : checkRecvCount s = some s1) :
    s1.p.Count = s.p.Count ∧ s1.p.OnSend = s.p.OnSend ∧ s1.p.PacketsSent = s.p.PacketsSent
      ∧ s1.p.sequence = s.p.sequence ∧ s1.onSend = s.onSend := by
  unfold checkRecvCount at h
  split_ifs at h
  · cases hc : closeDone s.p with
    | error e => rw [hc] at h; simp at h
    | ok p1 =>
      rw [hc] at h
      simp only [Option.some.injEq] at h
      subst h
      rw [closeDone_ok _ _ hc]
      simp [returnWith, finish]
  · simp only [Option.some.injEq] at h
    subst h
    simp

/-- The effect of one iteration of the loop of `Run` on the send counters: either they
and the `OnSend` record are unchanged, or the cap was not reached and one request was
sent, with the sequence number the iteration started with. -/
theorem loopStep_effect (Marshal : Message → Except String (List Byte))
    (ParseMessage : Nat → List Byte → Except String Message) (s s1 : RunState)
    (e : RunEvent) (h : loopStep Marshal ParseMessage s e = some s1) :
    s1.p.Count = s.p.Count ∧ s1.p.OnSend = s.p.OnSend
      ∧ ((s1.p.PacketsSent = s.p.PacketsSent ∧ s1.p.sequence = s.p.sequence
            ∧ s1.onSend = s.onSend)
          ∨ (¬ (s.p.Count > 0 ∧ s.p.PacketsSent ≥ s.p.Count)
              ∧ s1.p.PacketsSent = s.p.PacketsSent + 1
              ∧ s1.p.sequence = s.p.sequence + 1
              ∧ s1.onSend.map Packet.Seq
                  = s.onSend.map Packet.Seq ++ if s.p.OnSend then [s.p.sequence] else [])) := by
  cases e with
  | done =>
    simp only [loopStep] at h
    split_ifs at h <;> simp only [Option.some.injEq] at h <;> subst h <;>
      simp [returnWith, finish]
  | timeout =>
    simp only [loopStep] at h
    split_ifs at h
    · simp only [Option.some.injEq] at h; subst h; simp
    · cases hc : closeDone s.p with
      | error e => rw [hc] at h; simp at h
      | ok p1 =>
        rw [hc] at h
        simp only [Option.some.injEq] at h
        subst h
        rw [closeDone_ok _ _ hc]
        simp [returnWith, finish]
  | interval now writes =>
    simp only [loopStep] at h
    split_ifs at h with hret hcap
    · simp only [Option.some.injEq] at h; subst h; simp
    · simp only [Option.some.injEq] at h; subst h; simp
    · cases hs : sendICMP Marshal s.p now writes with
      | none => rw [hs] at h; simp at h
      | some r =>
        rw [hs] at h
        simp only at h
        obtain ⟨c1, c2, c3, c4, c5⟩ := checkRecvCount_some _ _ h
        simp only at c1 c2 c3 c4 c5
        rcases sendICMP_some Marshal s.p now writes r hs with ⟨hp, hon, _⟩ | ⟨b, w, hr⟩
        · rw [hp] at c1 c2 c3 c4
          rw [hon, List.append_nil] at c5
          exact ⟨c1, c2, Or.inl ⟨c3, c4, c5⟩⟩
        · subst hr
          simp only [sentOnce] at c1 c2 c3 c4 c5
          refine ⟨c1, c2, Or.inr ⟨hcap, c3, c4, ?_⟩⟩
          rw [c5, List.map_append]
          split_ifs <;> simp
  | recv receivedAt pkt =>
    simp only [loopStep] at h
    split_ifs at h
    · simp only [Option.some.injEq] at h; subst h; simp
    · cases hs : processPacket ParseMessage s.p receivedAt pkt with
      | none => rw [hs] at h; simp at h
      | some r =>
        rw [hs] at h
        simp only at h
        obtain ⟨c1, c2, c3, c4, c5⟩ := checkRecvCount_some _ _ h
        simp only at c1 c2 c3 c4 c5
        obtain ⟨k1, k2, k3, k4⟩ := processPacket_keeps ParseMessage s.p receivedAt pkt r hs
        rw [k1] at c1
        rw [k4] at c2
        rw [k2] at c3
        rw [k3] at c4
        exact ⟨c1, c2, Or.inl ⟨c3, c4, c5⟩⟩

theorem runLoop_cons (Marshal : Message → Except String (List Byte))
    (ParseMessage : Nat → List Byte → Except String Message) (s : RunState) (e : RunEvent)
    (es : List RunEvent) :
    runLoop Marshal ParseMessage s (e :: es)
      = (loopStep Marshal ParseMessage s e).bind fun s1 => runLoop Marshal ParseMessage s1 es := by
  simp [runLoop, List.foldlM_cons]

/-- The loop of `Run` keeps the sequence counter equal to `PacketsSent` and, when an
`OnSend` handler is set, hands it the sequence numbers `0, 1, 2, ...` in this order. -/
theorem runLoop_sequence (Marshal : Message → Except String (List Byte))
    (ParseMessage : Nat → List Byte → Except String Message) (events : List RunEvent)
    (s s1 : RunState) (h : runLoop Marshal ParseMessage s events = some s1)
    (hseq : s.p.sequence = s.p.PacketsSent) (h0 : 0 ≤ s.p.PacketsSent)
    (hlog : s.p.OnSend = true →
      s.onSend.map Packet.Seq = (List.range s.p.PacketsSent.toNat).map Int.ofNat) :
    s1.p.sequence = s1.p.PacketsSent ∧ 0 ≤ s1.p.PacketsSent
      ∧ s1.p.OnSend = s.p.OnSend
      ∧ (s1.p.OnSend = true →
          s1.onSend.map Packet.Seq
            = (List.range s1.p.PacketsSent.toNat).map Int.ofNat) := by
  induction events generalizing s with
  | nil =>
    simp only [runLoop, List.foldlM_nil, Option.pure_def, Option.some.injEq] at h
    subst h
    exact ⟨hseq, h0, rfl, hlog⟩
  | cons e es ih =>
    rw [runLoop_cons] at h
    cases hstep : loopStep Marshal ParseMessage s e with
    | none => rw [hstep] at h; simp at h
    | some s2 =>
      rw [hstep, Option.some_bind] at h
      obtain ⟨_, hOn, heff⟩ := loopStep_effect Marshal ParseMessage s s2 e hstep
      have key : s2.p.sequence = s2.p.PacketsSent ∧ 0 ≤ s2.p.PacketsSent
          ∧ (s2.p.OnSend = true →
            s2.onSend.map Packet.Seq
              = (List.range s2.p.PacketsSent.toNat).map Int.ofNat) := by
        rcases heff with ⟨e1, e2, e3⟩ | ⟨_, e1, e2, e3⟩
        · refine ⟨by omega, by omega, fun hh => ?_⟩
          rw [e3, e1]
          exact hlog (by rw [← hOn]; exact hh)
        · refine ⟨by omega, by omega, fun hh => ?_⟩
          have hon : s.p.OnSend = true := by rw [← hOn]; exact hh
          rw [e3, hlog hon, if_pos hon, e1, hseq]
          obtain ⟨n, hn⟩ := Int.eq_ofNat_of_zero_le h0
          rw [hn]
          have : ((n : Int) + 1).toNat = n + 1 := by omega
          rw [this, Int.toNat_ofNat, List.range_succ, List.map_append]
          rfl
      obtain ⟨r1, r2, r3, r4⟩ := ih s2 h key.1 key.2.1 key.2.2
      exact ⟨r1, r2, by rw [r3, hOn], r4⟩

/-- The loop of `Run` never lets `PacketsSent` pass a configured cap. -/
theorem runLoop_cap (Marshal : Message → Except String (List Byte))
    (ParseMessage : Nat → List Byte → Except String Message) (events : List RunEvent)
    (s s1 : RunState) (h : runLoop Marshal ParseMessage s events = some s1)
    (hpos : 0 < s.p.Count) (hcap : s.p.PacketsSent ≤ s.p.Count) :
    s1.p.Count = s.p.Count ∧ s1.p.PacketsSent ≤ s1.p.Count := by
  induction events generalizing s with
  | nil =>
    simp only [runLoop, List.foldlM_nil, Option.pure_def, Option.some.injEq] at h
    subst h
    exact ⟨rfl, hcap⟩
  | cons e es ih =>
    rw [runLoop_cons] at h
    cases hstep : loopStep Marshal ParseMessage s e with
    | none => rw [hstep] at h; simp at h
    | some s2 =>
      rw [hstep, Option.some_bind] at h
      obtain ⟨hC, _, heff⟩ := loopStep_effect Marshal ParseMessage s s2 e hstep
      have h2 : s2.p.PacketsSent ≤ s2.p.Count := by
        rcases heff with ⟨e1, _, _⟩ | ⟨e0, e1, _, _⟩
        · omega
        · have : s.p.PacketsSent < s.p.Count := by
            by_contra hc
            exact e0 ⟨hpos, by omega⟩
          omega
      obtain ⟨r1, r2⟩ := ih s2 h (by omega) h2
      exact ⟨by rw [r1, hC], r2⟩

theorem runLoop_count (Marshal : Message → Except String (List Byte))
    (ParseMessage : Nat → List Byte → Except String Message) (events : List RunEvent)
    (s s1 : RunState) (h : runLoop Marshal ParseMessage s events = some s1) :
    s1.p.Count = s.p.Count := by
  induction events generalizing s with
  | nil =>
    simp only [runLoop, List.foldlM_nil, Option.pure_def, Option.some.injEq] at h
    subst h
    rfl
  | cons e es ih =>
    rw [runLoop_cons] at h
    cases hstep : loopStep Marshal ParseMessage s e with
    | none => rw [hstep] at h; simp at h
    | some s2 =>
      rw [hstep, Option.some_bind] at h
      rw [ih s2 h, (loopStep_effect Marshal ParseMessage s s2 e hstep).1]

theorem Resolve_keeps (ResolveIPAddr : String → String → Except String IPAddr)
    (p : PingClient) :
    (Resolve ResolveIPAddr p).1.Count = p.Count
      ∧ (Resolve ResolveIPAddr p).1.OnSend = p.OnSend
      ∧ (Resolve ResolveIPAddr p).1.PacketsSent = p.PacketsSent
      ∧ (Resolve ResolveIPAddr p).1.sequence = p.sequence := by
  unfold Resolve
  split_ifs
  · simp
  · cases ResolveIPAddr p.network p.addr <;> simp

/-- From a fresh session, whatever `Run` has done after any events, the sequence
counter equals `PacketsSent`, an `OnSend` handler has been given the sequence numbers
`0, 1, 2, ...` in this order, and `PacketsSent` has not passed a configured cap. -/
theorem Run_counters (Marshal : Message → Except String (List Byte))
    (ParseMessage : Nat → List Byte → Except String Message)
    (ResolveIPAddr : String → String → Except String IPAddr)
    (ListenPacket : String → String → Except String Unit)
    (SetControlMessage : Bool → Except String Unit) (GOOS : String)
    (p : PingClient) (now : Time) (writes : List WriteResult) (events : List RunEvent)
    (s : RunState) (hseq : p.sequence = 0) (hsent : p.PacketsSent = 0)
    (h : Run Marshal ParseMessage ResolveIPAddr ListenPacket SetControlMessage GOOS p now
      writes events = some s) :
    s.p.Count = p.Count ∧ s.p.OnSend = p.OnSend
      ∧ s.p.sequence = s.p.PacketsSent ∧ 0 ≤ s.p.PacketsSent
      ∧ (s.p.OnSend = true →
          s.onSend.map Packet.Seq = (List.range s.p.PacketsSent.toNat).map Int.ofNat)
      ∧ (0 < p.Count → s.p.PacketsSent ≤ p.Count) := by
  unfold Run at h
  simp only at h
  generalize hres : (if p.ipaddr = none then Resolve ResolveIPAddr p else (p, none)) = res at h
  have hk : res.1.Count = p.Count ∧ res.1.OnSend = p.OnSend
      ∧ res.1.PacketsSent = p.PacketsSent ∧ res.1.sequence = p.sequence := by
    rw [← hres]
    split_ifs
    · exact Resolve_keeps ResolveIPAddr p
    · simp
  obtain ⟨p1, err1⟩ := res
  simp only at hk h
  obtain ⟨k1, k2, k3, k4⟩ := hk
  have base : ∀ q : PingClient, q.Count = p1.Count → q.OnSend = p1.OnSend →
      q.PacketsSent = p1.PacketsSent → q.sequence = p1.sequence →
      q.Count = p.Count ∧ q.OnSend = p.OnSend
        ∧ q.sequence = q.PacketsSent ∧ 0 ≤ q.PacketsSent
        ∧ (q.OnSend = true →
            ([] : List Packet).map Packet.Seq = (List.range q.PacketsSent.toNat).map Int.ofNat)
        ∧ (0 < p.Count → q.PacketsSent ≤ p.Count) := by
    intro q q1 q2 q3 q4
    refine ⟨by rw [q1, k1], by rw [q2, k2], by omega, by omega, fun _ => ?_, fun _ => by omega⟩
    rw [q3, k3, hsent]
    rfl
  cases err1 with
  | some e =>
    simp only [Option.some.injEq] at h
    subst h
    exact base p1 rfl rfl rfl rfl
  | none =>
    simp only at h
    cases hl : ListenPacket (if p1.ipv4 then ipv4Proto p1.protocol else ipv6Proto p1.protocol)
        p1.Source with
    | error e =>
      rw [hl] at h
      simp only at h
      cases hc : closeDone p1 with
      | error e2 => rw [hc] at h; simp at h
      | ok p2 =>
        rw [hc] at h
        simp only [Option.some.injEq] at h
        subst h
        rw [closeDone_ok _ _ hc]
        exact base _ rfl rfl rfl rfl
    | ok u =>
      rw [hl] at h
      simp only at h
      have main : (match sendICMP Marshal p1 now writes with
          | none => none
          | some r =>
            match r.err with
            | some e => some (returnWith
                { p := r.p, returned := false, err := none, onSend := r.onSend, onRecv := [],
                  onFinish := [], printed := [] } (some e))
            | none =>
              if r.p.Timeout ≤ 0 ∨ r.p.Interval ≤ 0 then none
              else runLoop Marshal ParseMessage
                { p := r.p, returned := false, err := none, onSend := r.onSend, onRecv := [],
                  onFinish := [], printed := [] } events) = some s →
          s.p.Count = p.Count ∧ s.p.OnSend = p.OnSend
            ∧ s.p.sequence = s.p.PacketsSent ∧ 0 ≤ s.p.PacketsSent
            ∧ (s.p.OnSend = true →
                s.onSend.map Packet.Seq = (List.range s.p.PacketsSent.toNat).map Int.ofNat)
            ∧ (0 < p.Count → s.p.PacketsSent ≤ p.Count) := by
        intro h
        cases hs : sendICMP Marshal p1 now writes with
        | none => rw [hs] at h; simp at h
        | some r =>
          rw [hs] at h
          simp only at h
          -- the state after the first send
          have first : r.p.Count = p.Count ∧ r.p.OnSend = p.OnSend
              ∧ r.p.sequence = r.p.PacketsSent ∧ 0 ≤ r.p.PacketsSent
              ∧ (r.p.OnSend = true →
                  r.onSend.map Packet.Seq = (List.range r.p.PacketsSent.toNat).map Int.ofNat)
              ∧ (0 < p.Count → r.p.PacketsSent ≤ p.Count) := by
            rcases sendICMP_some Marshal p1 now writes r hs with ⟨hp, hon, _⟩ | ⟨b, w, hr⟩
            · rw [hp, hon]
              exact base p1 rfl rfl rfl rfl
            · subst hr
              simp only [sentOnce]
              refine ⟨k1, k2, by omega, by omega, fun hh => ?_, fun _ => by omega⟩
              rw [if_pos hh, k3, hsent, k4, hseq]
              rfl
          cases herr : r.err with
          | some e =>
            rw [herr] at h
            simp only [Option.some.injEq] at h
            subst h
            simpa [returnWith, finish] using first
          | none =>
            rw [herr] at h
            simp only at h
            split_ifs at h
            obtain ⟨f1, f2, f3, f4, f5, f6⟩ := first
            obtain ⟨a1, a2, a3, a4⟩ := runLoop_sequence Marshal ParseMessage events _ s h f3 f4 f5
            simp only at a3
            refine ⟨?_, by rw [a3, f2], a1, a2, a4, ?_⟩
            · exact (runLoop_count Marshal ParseMessage events _ s h).trans f1
            · intro hpos
              have := runLoop_cap Marshal ParseMessage events _ s h (by simpa [f1] using hpos)
                (by simpa [f1] using f6 hpos)
              simp only at this
              rw [this.1, f1] at this
              exact this.2
      split at h
      · simp only [Option.some.injEq] at h
        subst h
        exact base p1 rfl rfl rfl rfl
      · exact main h

theorem sendICMP_retries (Marshal : Message → Except String (List Byte)) (p : PingClient)
    (now : Time) (k : Nat) (n : Int) (rest : List WriteResult) (msgBytes : List Byte)
    (hdst : ¬ (p.protocol = "udp" ∧ p.ipaddr = none))
    (hmsg : (echoRequest p now).map Marshal = some (.ok msgBytes)) :
    sendICMP Marshal p now (List.replicate k (.opError .ENOBUFS) ++ .ok n :: rest)
      = some (sentOnce p msgBytes (k + 1)) := by
  rw [sendICMP_eq, if_neg hdst]
  cases hreq : echoRequest p now with
  | none => rw [hreq] at hmsg; simp at hmsg
  | some msg =>
    rw [hreq] at hmsg
    have hM : Marshal msg = .ok msgBytes := Option.some.inj hmsg
    simp only [hM]
    exact sendLoop_retries p msgBytes k n rest

/-- C12.  For every `Run` started on a fresh session with a cap `Count > 0`, after any
events `PacketsSent` does not exceed `Count`; an interval fire at which `PacketsSent` has
reached the cap sends nothing and leaves the state, so `PacketsSent` and the sequence
counter, unchanged; an interval fire before the cap is reached, on a running session
with a destination and an open `done`, sends one request. -/
theorem Run_respects_cap (Marshal : Message → Except String (List Byte))
    (ParseMessage : Nat → List Byte → Except String Message)
    (ResolveIPAddr : String → String → Except String IPAddr)
    (ListenPacket : String → String → Except String Unit)
    (SetControlMessage : Bool → Except String Unit) (GOOS : String)
    (p : PingClient) (now : Time) (writes : List WriteResult) (events : List RunEvent)
    (s : RunState) (hfresh : p.PacketsSent = 0 ∧ p.sequence = 0) (hcount : 0 < p.Count)
    (hrun : Run Marshal ParseMessage ResolveIPAddr ListenPacket SetControlMessage GOOS p now
      writes events = some s) :
    s.p.PacketsSent ≤ p.Count ∧ s.p.Count = p.Count
      ∧ (∀ (t : RunState) (now1 : Time) (ws : List WriteResult),
          0 < t.p.Count → t.p.PacketsSent ≥ t.p.Count →
          loopStep Marshal ParseMessage t (.interval now1 ws) = some t)
      ∧ (∀ (t : RunState) (now1 : Time) (k : Nat) (n : Int) (rest : List WriteResult)
          (msgBytes : List Byte),
          t.returned = false → t.p.doneClosed = false →
          ¬ (t.p.Count > 0 ∧ t.p.PacketsSent ≥ t.p.Count) →
          ¬ (t.p.protocol = "udp" ∧ t.p.ipaddr = none) →
          (echoRequest t.p now1).map Marshal = some (.ok msgBytes) →
          ∃ t1, loopStep Marshal ParseMessage t
                (.interval now1 (List.replicate k (.opError .ENOBUFS) ++ .ok n :: rest))
              = some t1
            ∧ t1.p.PacketsSent = t.p.PacketsSent + 1
            ∧ t1.p.sequence = t.p.sequence + 1) := by
  obtain ⟨h1, _, _, _, _, h6⟩ := Run_counters Marshal ParseMessage ResolveIPAddr ListenPacket
    SetControlMessage GOOS p now writes events s hfresh.2 hfresh.1 hrun
  refine ⟨h6 hcount, h1, ?_, ?_⟩
  · intro t now1 ws hpos hcap
    simp only [loopStep]
    split_ifs with hr hc
    · rfl
    · rfl
    · exact absurd ⟨hpos, hcap⟩ hc
  · intro t now1 k n rest b hret hopen hcap hdst hmsg
    have hsend := sendICMP_retries Marshal t.p now1 k n rest b hdst hmsg
    simp only [loopStep, hret, Bool.false_eq_true, if_false, if_neg hcap, hsend]
    unfold checkRecvCount
    split_ifs
    · have hc : closeDone (sentOnce t.p b (k + 1)).p
          = .ok { (sentOnce t.p b (k + 1)).p with doneClosed := true } := by
        simp [closeDone, sentOnce, hopen]
      simp only [hc]
      exact ⟨_, rfl, rfl, rfl⟩
    · exact ⟨_, rfl, rfl, rfl⟩

/-- Witness for C12: a `Run` with the cap `Count = 2`; the first send and the first
interval fire send a request each, the two fires after that send nothing. -/
theorem Run_respects_cap_witness :
    (cappedClient.PacketsSent = 0 ∧ cappedClient.sequence = 0) ∧ 0 < cappedClient.Count
      ∧ (Run (fun _ => .ok []) (fun _ _ => .error "no message") (fun _ _ => .error "no host")
            (fun _ _ => .ok ()) (fun _ => .ok ()) "linux" cappedClient sampleTime [.ok 24]
            [.interval sampleTime [.ok 24], .interval sampleTime [.ok 24],
              .interval sampleTime [.ok 24]]).map
          (fun s => (s.p.PacketsSent, s.p.sequence, s.returned))
        = some (2, 2, false)
      ∧ ∀ s, Run (fun _ => .ok []) (fun _ _ => .error "no message")
            (fun _ _ => .error "no host") (fun _ _ => .ok ()) (fun _ => .ok ()) "linux"
            cappedClient sampleTime [.ok 24]
            [.interval sampleTime [.ok 24], .interval sampleTime [.ok 24],
              .interval sampleTime [.ok 24]] = some s →
          s.p.PacketsSent ≤ cappedClient.Count :=
  ⟨by decide, by decide, by decide, fun s hs =>
    (Run_respects_cap (fun _ => .ok []) (fun _ _ => .error "no message")
      (fun _ _ => .error "no host") (fun _ _ => .ok ()) (fun _ => .ok ()) "linux"
      cappedClient sampleTime [.ok 24]
      [.interval sampleTime [.ok 24], .interval sampleTime [.ok 24],
        .interval sampleTime [.ok 24]] s (by decide) (by decide) hs).1⟩

end Ping
